import Mathlib

set_option maxRecDepth 100000

/-!
# gofish `redfish/updateservice.go`

A shallow embedding of `UpdateService.UnmarshalJSON`, `GetUpdateService`,
`SoftwareInventories` and `FirmwareInventories`, and what holds of them.

`UnmarshalJSON` hands its input to `json.Unmarshal` with a local struct as
target. The behaviour of `encoding/json` that this call relies on is modelled
first:

* the scanner: JSON text is read byte by byte into a value that remembers
  the input text of every member; white space, literals, numbers, strings with
  their escapes, and the nesting limit are those of the Go scanner;
* names: a member is stored into the field whose name it carries exactly, else
  into the first field whose name equals it under case folding; a member that
  selects no field is skipped;
* order: members are stored in input order, so a repeated name is stored
  again, into the value the earlier store left;
* values: `null` leaves strings, booleans and structs as they are and empties
  a slice; a `json.RawMessage` takes the input text of any value; a value of
  another kind than the field's is an error.

The declarations of package `common`, which are outside the file, are
parameters (`Common`, `LinkDecl`, and the functions handed to
`GetUpdateService` and the accessors); where a statement is about them they
are modelled from the spec, and marked so.
-/

namespace Gofish

/-! ## Bytes and UTF-8 -/

/-- A Go `[]byte` / `string`: a sequence of byte values. -/
abbrev Bytes := List Nat

/-- UTF-8 encoding of a code point (`utf8.AppendRune` on a valid rune). -/
def encodeRune (r : Nat) : Bytes :=
  if r < 0x80 then [r]
  else if r < 0x800 then [0xC0 + r / 64, 0x80 + r % 64]
  else if r < 0x10000 then [0xE0 + r / 4096, 0x80 + r / 64 % 64, 0x80 + r % 64]
  else [0xF0 + r / 262144, 0x80 + r / 4096 % 64, 0x80 + r / 64 % 64, 0x80 + r % 64]

/-- The bytes of a string constant. -/
def bytesOf (s : String) : Bytes :=
  s.toList.flatMap (fun c => encodeRune c.toNat)

/-- A UTF-8 continuation byte. -/
def isCont (c : Nat) : Bool := 0x80 ≤ c && c ≤ 0xBF

/-- Length of the well-formed UTF-8 sequence that starts a byte string whose
first byte is not ASCII; `0` when there is none (`utf8.DecodeRune` then
yields `RuneError` of width 1). -/
def runeLen : Bytes → Nat
  | [] => 0
  | b0 :: rest =>
    let lo : Nat := if b0 = 0xE0 then 0xA0 else if b0 = 0xF0 then 0x90 else 0x80
    let hi : Nat := if b0 = 0xED then 0x9F else if b0 = 0xF4 then 0x8F else 0xBF
    if 0xC2 ≤ b0 ∧ b0 ≤ 0xDF then
      match rest with
      | b1 :: _ => if isCont b1 then 2 else 0
      | _ => 0
    else if 0xE0 ≤ b0 ∧ b0 ≤ 0xEF then
      match rest with
      | b1 :: b2 :: _ => if lo ≤ b1 ∧ b1 ≤ hi ∧ isCont b2 then 3 else 0
      | _ => 0
    else if 0xF0 ≤ b0 ∧ b0 ≤ 0xF4 then
      match rest with
      | b1 :: b2 :: b3 :: _ => if lo ≤ b1 ∧ b1 ≤ hi ∧ isCont b2 ∧ isCont b3 then 4 else 0
      | _ => 0
    else 0

/-! ## JSON text: the scanner of `encoding/json` -/

/-- JSON white space: space, tab, carriage return, line feed. -/
def isSpace (c : Nat) : Bool := c = 32 || c = 9 || c = 13 || c = 10

/-- Drops leading white space. -/
def skipSpace : Bytes → Bytes
  | [] => []
  | c :: cs => if isSpace c then skipSpace cs else c :: cs

/-- An ASCII decimal digit. -/
def isDigit (c : Nat) : Bool := 48 ≤ c && c ≤ 57

/-- An ASCII hexadecimal digit. -/
def isHex (c : Nat) : Bool :=
  isDigit c || (97 ≤ c && c ≤ 102) || (65 ≤ c && c ≤ 70)

/-- Value of a hexadecimal digit. -/
def hexVal (c : Nat) : Nat :=
  if isDigit c then c - 48 else if 97 ≤ c then c - 87 else c - 55

/-- The one-letter escapes the scanner accepts after a backslash:
`b f n r t \ / "`. -/
def simpleEscapes : List Nat := [98, 102, 110, 114, 116, 92, 47, 34]

/-- Scans the body of a string literal, the opening quote already read:
the input left after the closing quote. Bytes below 0x20 and escapes other
than the JSON ones are syntax errors. -/
def scanString : Nat → Bytes → Option Bytes
  | 0, _ => none
  | _ + 1, [] => none
  | n + 1, c :: rest =>
    if c = 34 then some rest
    else if c = 92 then
      match rest with
      | [] => none
      | e :: rest1 =>
        if e = 117 then
          match rest1 with
          | h1 :: h2 :: h3 :: h4 :: rest2 =>
            if isHex h1 && isHex h2 && isHex h3 && isHex h4 then scanString n rest2 else none
          | _ => none
        else if e ∈ simpleEscapes then scanString n rest1
        else none
    else if c < 32 then none
    else scanString n rest

/-- Drops leading decimal digits. -/
def skipDigits : Bytes → Bytes
  | [] => []
  | c :: cs => if isDigit c then skipDigits cs else c :: cs

/-- One or more digits, then the rest. -/
def scanDigits1 : Bytes → Option Bytes
  | c :: cs => if isDigit c then some (skipDigits cs) else none
  | [] => none

/-- Optional exponent of a number. -/
def scanExp : Bytes → Option Bytes
  | c :: cs =>
    if c = 101 || c = 69 then
      match cs with
      | s :: ds => if s = 43 || s = 45 then scanDigits1 ds else scanDigits1 (s :: ds)
      | [] => none
    else some (c :: cs)
  | [] => some []

/-- Optional fraction, then optional exponent. -/
def scanFrac : Bytes → Option Bytes
  | c :: cs =>
    if c = 46 then
      match scanDigits1 cs with
      | some r => scanExp r
      | none => none
    else scanExp (c :: cs)
  | [] => some []

/-- Integer part (after an optional minus sign), then fraction and exponent. -/
def scanInt : Bytes → Option Bytes
  | c :: cs =>
    if c = 48 then scanFrac cs
    else if 49 ≤ c ∧ c ≤ 57 then scanFrac (skipDigits cs)
    else none
  | [] => none

/-- Scans a number literal: the input left after it. -/
def scanNumber : Bytes → Option Bytes
  | c :: cs => if c = 45 then scanInt cs else scanInt (c :: cs)
  | [] => none

/-- The part of `input` read when `rest` is what is left of it. -/
def consumed (input rest : Bytes) : Bytes :=
  input.take (input.length - rest.length)

/-! ## Unquoting (`unquoteBytes`) -/

/-- Four hexadecimal digits as a number. -/
def getu4 (a b c d : Nat) : Nat :=
  ((hexVal a * 16 + hexVal b) * 16 + hexVal c) * 16 + hexVal d

/-- The low surrogate escaped at the head of the input, if any. -/
def lowSurrogate : Bytes → Option Nat
  | 92 :: 117 :: a :: b :: c :: d :: _ =>
    if isHex a && isHex b && isHex c && isHex d
        && 0xDC00 ≤ getu4 a b c d && getu4 a b c d < 0xE000 then
      some (getu4 a b c d)
    else none
  | _ => none

/-- U+FFFD in UTF-8. -/
def replacementChar : Bytes := [0xEF, 0xBF, 0xBD]

/-- The byte an escape letter stands for. -/
def escapeByte (e : Nat) : Nat :=
  if e = 98 then 8 else if e = 102 then 12 else if e = 110 then 10
  else if e = 114 then 13 else if e = 116 then 9 else e

/-- The text a scanned string body denotes: escapes resolved, surrogate pairs
joined, lone surrogates and malformed UTF-8 replaced by U+FFFD. -/
def unquote : Nat → Bytes → Bytes
  | 0, _ => []
  | _ + 1, [] => []
  | n + 1, c :: rest =>
    if c = 92 then
      match rest with
      | [] => []
      | e :: rest1 =>
        if e = 117 then
          match rest1 with
          | h1 :: h2 :: h3 :: h4 :: rest2 =>
            let r := getu4 h1 h2 h3 h4
            if 0xD800 ≤ r ∧ r < 0xE000 then
              match lowSurrogate rest2 with
              | some r2 =>
                if r < 0xDC00 then
                  encodeRune ((r - 0xD800) * 1024 + (r2 - 0xDC00) + 0x10000)
                    ++ unquote n (rest2.drop 6)
                else replacementChar ++ unquote n rest2
              | none => replacementChar ++ unquote n rest2
            else encodeRune r ++ unquote n rest2
          | _ => []
        else escapeByte e :: unquote n rest1
    else if c < 0x80 then c :: unquote n rest
    else
      match runeLen (c :: rest) with
      | 0 => replacementChar ++ unquote n rest
      | k + 1 => c :: rest.take k ++ unquote n (rest.drop k)

/-! ## JSON values -/

/-- A parsed JSON value. Strings, numbers, arrays and objects remember the
exact input text they were read from (`raw`), which is what
`json.RawMessage` and every `UnmarshalJSON` method receive. -/
inductive JValue where
  | null
  | bool (b : Bool)
  | number (raw : Bytes)
  | string (raw : Bytes) (s : Bytes)
  | array (raw : Bytes) (elems : List JValue)
  | object (raw : Bytes) (members : List (Bytes × JValue))

/-- The input text of a value. -/
def JValue.raw : JValue → Bytes
  | .null => [110, 117, 108, 108]
  | .bool true => [116, 114, 117, 101]
  | .bool false => [102, 97, 108, 115, 101]
  | .number r => r
  | .string r _ => r
  | .array r _ => r
  | .object r _ => r

/-- Reads a string literal whose opening quote has been read: the raw text
between the quotes and the input after the closing quote. -/
def parseString (body : Bytes) : Option (Bytes × Bytes) :=
  match scanString (body.length + 1) body with
  | none => none
  | some rest => some ((consumed body rest).dropLast, rest)

/-- Array elements after the first: `pv` reads one value. -/
def parseElems (pv : Bytes → Option (JValue × Bytes)) :
    Nat → Bytes → Option (List JValue × Bytes)
  | 0, _ => none
  | n + 1, input =>
    match pv (skipSpace input) with
    | none => none
    | some (v, rest) =>
      match skipSpace rest with
      | c :: rest1 =>
        if c = 44 then
          match parseElems pv n rest1 with
          | none => none
          | some (vs, r) => some (v :: vs, r)
        else if c = 93 then some ([v], rest1)
        else none
      | [] => none

/-- Object members: `"key" : value` separated by commas, closed by a brace. -/
def parseMembers (pv : Bytes → Option (JValue × Bytes)) :
    Nat → Bytes → Option (List (Bytes × JValue) × Bytes)
  | 0, _ => none
  | n + 1, input =>
    match skipSpace input with
    | q :: body =>
      if q = 34 then
        match parseString body with
        | none => none
        | some (key, rest) =>
          match skipSpace rest with
          | c :: rest1 =>
            if c = 58 then
              match pv (skipSpace rest1) with
              | none => none
              | some (v, rest2) =>
                match skipSpace rest2 with
                | d :: rest3 =>
                  if d = 44 then
                    match parseMembers pv n rest3 with
                    | none => none
                    | some (ms, r) => some ((unquote key.length key, v) :: ms, r)
                  else if d = 125 then some ([(unquote key.length key, v)], rest3)
                  else none
                | [] => none
            else none
          | [] => none
      else none
    | [] => none

/-- Checks that the input starts with the given letters. -/
def expect (word : Bytes) (input : Bytes) : Option Bytes :=
  if word.isPrefixOf input then some (input.drop word.length) else none

/-- Reads one JSON value at the head of the input (white space already
skipped). The first argument bounds the nesting of arrays and objects as the
scanner does (`maxNestingDepth`). -/
def parseValue : Nat → Bytes → Option (JValue × Bytes)
  | _, [] => none
  | depth, c :: rest =>
    if c = 34 then
      match parseString rest with
      | none => none
      | some (body, r) => some (.string (consumed (c :: rest) r) (unquote body.length body), r)
    else if c = 123 then
      match depth with
      | 0 => none
      | d + 1 =>
        match skipSpace rest with
        | 125 :: r => some (.object (consumed (c :: rest) r) [], r)
        | inner =>
          match parseMembers (parseValue d) inner.length inner with
          | none => none
          | some (ms, r) => some (.object (consumed (c :: rest) r) ms, r)
    else if c = 91 then
      match depth with
      | 0 => none
      | d + 1 =>
        match skipSpace rest with
        | 93 :: r => some (.array (consumed (c :: rest) r) [], r)
        | inner =>
          match parseElems (parseValue d) inner.length inner with
          | none => none
          | some (vs, r) => some (.array (consumed (c :: rest) r) vs, r)
    else if c = 116 then
      match expect [114, 117, 101] rest with
      | none => none
      | some r => some (.bool true, r)
    else if c = 102 then
      match expect [97, 108, 115, 101] rest with
      | none => none
      | some r => some (.bool false, r)
    else if c = 110 then
      match expect [117, 108, 108] rest with
      | none => none
      | some r => some (.null, r)
    else
      match scanNumber (c :: rest) with
      | none => none
      | some r => some (.number (consumed (c :: rest) r), r)

/-- The scanner's limit on nested arrays and objects. -/
def maxNestingDepth : Nat := 10000

/-- A whole JSON text: one value, white space around it, nothing after. -/
def parse (b : Bytes) : Option JValue :=
  match parseValue maxNestingDepth (skipSpace b) with
  | none => none
  | some (v, rest) => if skipSpace rest = [] then some v else none

/-! ## Storing JSON into Go values (`decodeState.value`) -/

/-- Why `json.Unmarshal` failed: the text is not JSON (`*json.SyntaxError`,
or the nesting limit), or a value does not fit the Go type it is stored into
(`*json.UnmarshalTypeError`, or the error of an `UnmarshalJSON` method). -/
inductive DecodeError where
  | malformed
  | typeMismatch
  deriving DecidableEq, Repr

/-- Case folding of member names (`foldName`): ASCII letters to upper case,
and the two non-ASCII letters whose fold is ASCII, U+017F to `S` and U+212A
to `K`. Used against ASCII field names only. -/
def foldName : Bytes → Bytes
  | [] => []
  | 0xC5 :: 0xBF :: rest => 83 :: foldName rest
  | 0xE2 :: 0x84 :: 0xAA :: rest => 75 :: foldName rest
  | c :: rest => (if 97 ≤ c ∧ c ≤ 122 then c - 32 else c) :: foldName rest

/-- A struct field as `encoding/json` sees it: its JSON name and how a JSON
value is stored into it (the struct before, the struct after). -/
structure Field (σ : Type) where
  name : Bytes
  store : JValue → σ → Except DecodeError σ

/-- The field a member name selects: the field with exactly that name, else
the first field whose name equals it under case folding. -/
def findField {σ : Type} (fields : List (Field σ)) (key : Bytes) : Option (Field σ) :=
  match fields.find? (fun f => f.name == key) with
  | some f => some f
  | none => fields.find? (fun f => foldName f.name == foldName key)

/-- Stores the members of a JSON object into a struct, in input order
(`decodeState.object`): a member whose name selects no field is skipped. A
store that fails makes the call fail; the library reads on after a type error
and reports it at the end, which gives the same error. -/
def storeMembers {σ : Type} (fields : List (Field σ)) :
    List (Bytes × JValue) → σ → Except DecodeError σ
  | [], s => .ok s
  | (k, v) :: ms, s =>
    match findField fields k with
    | none => storeMembers fields ms s
    | some f =>
      match f.store v s with
      | .error e => .error e
      | .ok s1 => storeMembers fields ms s1

/-- Stores a JSON value into a struct: an object member by member, `null`
leaves the struct as it is, anything else is a type error. -/
def storeStruct {σ : Type} (fields : List (Field σ)) (v : JValue) (cur : σ) :
    Except DecodeError σ :=
  match v with
  | .object _ ms => storeMembers fields ms cur
  | .null => .ok cur
  | _ => .error .typeMismatch

/-- Stores a JSON value into a Go `string`: `null` has no effect. -/
def storeString (v : JValue) (cur : Bytes) : Except DecodeError Bytes :=
  match v with
  | .string _ s => .ok s
  | .null => .ok cur
  | _ => .error .typeMismatch

/-- Stores a JSON value into a Go `bool`: `null` has no effect. -/
def storeBool (v : JValue) (cur : Bool) : Except DecodeError Bool :=
  match v with
  | .bool b => .ok b
  | .null => .ok cur
  | _ => .error .typeMismatch

/-- Stores a JSON value into a `json.RawMessage`: the value's input text,
whatever the value is (`null` included). -/
def storeRaw (v : JValue) (_cur : Bytes) : Except DecodeError Bytes :=
  .ok v.raw

/-- A Go `[]string`: the elements, and what the backing array still holds
past the length (`spare`), which the decoder decodes into when the same
member occurs again. -/
structure StringSlice where
  elems : List Bytes
  spare : List Bytes
  deriving DecidableEq, Repr

/-- The nil slice. -/
def StringSlice.zero : StringSlice := ⟨[], []⟩

/-- Stores array elements into consecutive slots of the backing array; a slot
past what the array held starts as the empty string. -/
def storeElems : List JValue → List Bytes → Except DecodeError (List Bytes)
  | [], _ => .ok []
  | v :: vs, backing =>
    match storeString v (backing.headD []) with
    | .error e => .error e
    | .ok s =>
      match storeElems vs backing.tail with
      | .error e => .error e
      | .ok rest => .ok (s :: rest)

/-- Stores a JSON value into a `[]string` (`decodeState.array`): `null` and
the empty array give an empty slice, an array is decoded slot by slot and
the slice cut to its length. -/
def storeStrings (v : JValue) (cur : StringSlice) : Except DecodeError StringSlice :=
  match v with
  | .null => .ok StringSlice.zero
  | .array _ [] => .ok StringSlice.zero
  | .array _ es =>
    match storeElems es (cur.elems ++ cur.spare) with
    | .error e => .error e
    | .ok xs => .ok ⟨xs, (cur.elems ++ cur.spare).drop es.length⟩
  | _ => .error .typeMismatch

/-! ## Package `common` -/

/-- The odata link key. -/
def odataIdKey : Bytes := bytesOf "@odata.id"

/-- The value of the first member of an object with exactly the given name. -/
def JValue.member? (v : JValue) (name : Bytes) : Option JValue :=
  match v with
  | .object _ ms => (ms.find? (fun m => m.1 == name)).map (fun m => m.2)
  | _ => none

/-- Modelled from the spec: `common.Link` and its `UnmarshalJSON`, which
are declared outside `updateservice.go`. Section 4.1: decode accepts a bare
string, or an object carrying the well-known key `@odata.id` holding the URI,
and fails with a decode error if neither shape matches. -/
def Link.decode (v : JValue) : Except DecodeError Bytes :=
  match v with
  | .string _ s => .ok s
  | .object raw ms =>
    match (JValue.object raw ms).member? odataIdKey with
    | some (.string _ u) => .ok u
    | _ => .error .typeMismatch
  | _ => .error .typeMismatch

/-- What `updateservice.go` takes from `common.Link`, which is declared
outside the file: the zero value of a link, how a JSON value is stored into
a link (`Link.UnmarshalJSON`) and the method `String`. -/
structure LinkDecl (L : Type) where
  zero : L
  store : JValue → L → Except DecodeError L
  String : L → Bytes

/-- Modelled from the spec: `common.Link`, declared outside the file. Section
2 and 4.1: a link is decoded from either shape and turned into a plain URI
string at once, so a link is its URI, stored by `Link.decode`. -/
def Link.spec : LinkDecl Bytes :=
  { zero := [], store := fun v _ => Link.decode v, String := fun l => l }

/-- What `updateservice.go` takes from package `common` for decoding, whose
declarations are outside the file: the embedded `Entity` struct (its zero
value and its JSON fields, promoted into every resource that embeds it; a
plain struct, with no `UnmarshalJSON` of its own) and the `Status` struct (its
zero value and how a JSON value is stored into it). -/
structure Common (E S : Type) where
  entityZero : E
  entityFields : List (Field E)
  statusZero : S
  storeStatus : JValue → S → Except DecodeError S

/-! ## `updateservice.go` -/

/-- The struct `UpdateService` (lines 14-50). -/
structure UpdateService (E S : Type) where
  Entity : E
  ODataContext : Bytes
  ODataType : Bytes
  Description : Bytes
  FirmwareInventory : Bytes
  SoftwareInventory : Bytes
  HTTPPushURI : Bytes
  MultipartHTTPPushURI : Bytes
  ServiceEnabled : Bool
  Status : S
  TransferProtocol : StringSlice
  UpdateServiceTarget : Bytes
  StartUpdateTarget : Bytes
  OemActions : Bytes
  Oem : Bytes
  rawData : Bytes

/-- The zero value of `UpdateService` (`var updateService UpdateService`). -/
def UpdateService.zero {E S : Type} (x : Common E S) : UpdateService E S :=
  { Entity := x.entityZero, ODataContext := [], ODataType := [], Description := [],
    FirmwareInventory := [], SoftwareInventory := [], HTTPPushURI := [],
    MultipartHTTPPushURI := [], ServiceEnabled := false, Status := x.statusZero,
    TransferProtocol := StringSlice.zero, UpdateServiceTarget := [],
    StartUpdateTarget := [], OemActions := [], Oem := [], rawData := [] }

/-- The struct of `actions.SimpleUpdate` (lines 56-59). -/
structure SimpleUpdate where
  AllowableValues : StringSlice
  Target : Bytes
  deriving DecidableEq, Repr

/-- The struct of `actions.StartUpdate` (lines 63-65). -/
structure StartUpdate where
  Target : Bytes
  deriving DecidableEq, Repr

/-- The local type `actions` of `UnmarshalJSON` (lines 55-68). -/
structure actions where
  SimpleUpdate : SimpleUpdate
  StartUpdate : StartUpdate
  Oem : Bytes
  deriving DecidableEq, Repr

/-- The zero value of `actions`. -/
def actions.zero : actions :=
  { SimpleUpdate := ⟨StringSlice.zero, []⟩, StartUpdate := ⟨[]⟩, Oem := [] }

/-- The local variable `t` of `UnmarshalJSON` (lines 69-74): the embedded
`temp`, the `Actions`, and the two link fields that shadow the string fields
of the same name in `temp`. -/
structure T (E S L : Type) where
  temp : UpdateService E S
  Actions : actions
  FirmwareInventory : L
  SoftwareInventory : L

/-- The zero value of `t`. -/
def T.zero {E S L : Type} (x : Common E S) (lk : LinkDecl L) : T E S L :=
  { temp := UpdateService.zero x, Actions := actions.zero,
    FirmwareInventory := lk.zero, SoftwareInventory := lk.zero }

/-- JSON fields of `actions.SimpleUpdate`. -/
def simpleUpdateFields : List (Field SimpleUpdate) :=
  [ { name := bytesOf "TransferProtocol@Redfish.AllowableValues",
      store := fun v s => (storeStrings v s.AllowableValues).map
        (fun a => { s with AllowableValues := a }) },
    { name := bytesOf "Target",
      store := fun v s => (storeString v s.Target).map (fun a => { s with Target := a }) } ]

/-- JSON fields of `actions.StartUpdate`. -/
def startUpdateFields : List (Field StartUpdate) :=
  [ { name := bytesOf "Target",
      store := fun v s => (storeString v s.Target).map (fun a => { s with Target := a }) } ]

/-- JSON fields of `actions`. -/
def actionsFields : List (Field actions) :=
  [ { name := bytesOf "#UpdateService.SimpleUpdate",
      store := fun v s => (storeStruct simpleUpdateFields v s.SimpleUpdate).map
        (fun a => { s with SimpleUpdate := a }) },
    { name := bytesOf "#UpdateService.StartUpdate",
      store := fun v s => (storeStruct startUpdateFields v s.StartUpdate).map
        (fun a => { s with StartUpdate := a }) },
    { name := bytesOf "Oem",
      store := fun v s => (storeRaw v s.Oem).map (fun a => { s with Oem := a }) } ]

/-- Lifts a store on `UpdateService` (the embedded `temp`) to `t`. -/
def onTemp {E S L : Type} (f : Field (UpdateService E S)) : Field (T E S L) :=
  { name := f.name,
    store := fun v t => (f.store v t.temp).map (fun u => { t with temp := u }) }

/-- Lifts a promoted field of the embedded `Entity` to `UpdateService`. -/
def onEntity {E S : Type} (f : Field E) : Field (UpdateService E S) :=
  { name := f.name,
    store := fun v u => (f.store v u.Entity).map (fun e => { u with Entity := e }) }

/-- JSON fields that `temp` declares itself (lines 17-47), in order, without
`FirmwareInventory` and `SoftwareInventory`, which the fields of `t` of the
same name shadow, and without the unexported `rawData`. -/
def tempFields {E S : Type} (x : Common E S) : List (Field (UpdateService E S)) :=
  [ { name := bytesOf "@odata.context",
      store := fun v u => (storeString v u.ODataContext).map (fun a => { u with ODataContext := a }) },
    { name := bytesOf "@odata.type",
      store := fun v u => (storeString v u.ODataType).map (fun a => { u with ODataType := a }) },
    { name := bytesOf "Description",
      store := fun v u => (storeString v u.Description).map (fun a => { u with Description := a }) },
    { name := bytesOf "HttpPushUri",
      store := fun v u => (storeString v u.HTTPPushURI).map (fun a => { u with HTTPPushURI := a }) },
    { name := bytesOf "MultiPartHttpPushUri",
      store := fun v u => (storeString v u.MultipartHTTPPushURI).map
        (fun a => { u with MultipartHTTPPushURI := a }) },
    { name := bytesOf "ServiceEnabled",
      store := fun v u => (storeBool v u.ServiceEnabled).map (fun a => { u with ServiceEnabled := a }) },
    { name := bytesOf "Status",
      store := fun v u => (x.storeStatus v u.Status).map (fun a => { u with Status := a }) },
    { name := bytesOf "TransferProtocol",
      store := fun v u => (storeStrings v u.TransferProtocol).map
        (fun a => { u with TransferProtocol := a }) },
    { name := bytesOf "UpdateServiceTarget",
      store := fun v u => (storeString v u.UpdateServiceTarget).map
        (fun a => { u with UpdateServiceTarget := a }) },
    { name := bytesOf "StartUpdateTarget",
      store := fun v u => (storeString v u.StartUpdateTarget).map
        (fun a => { u with StartUpdateTarget := a }) },
    { name := bytesOf "OemActions",
      store := fun v u => (storeRaw v u.OemActions).map (fun a => { u with OemActions := a }) },
    { name := bytesOf "Oem",
      store := fun v u => (storeRaw v u.Oem).map (fun a => { u with Oem := a }) } ]

/-- JSON fields that `t` declares itself (lines 71-73). -/
def outerFields {E S L : Type} (lk : LinkDecl L) : List (Field (T E S L)) :=
  [ { name := bytesOf "Actions",
      store := fun v t => (storeStruct actionsFields v t.Actions).map
        (fun a => { t with Actions := a }) },
    { name := bytesOf "FirmwareInventory",
      store := fun v t => (lk.store v t.FirmwareInventory).map
        (fun a => { t with FirmwareInventory := a }) },
    { name := bytesOf "SoftwareInventory",
      store := fun v t => (lk.store v t.SoftwareInventory).map
        (fun a => { t with SoftwareInventory := a }) } ]

/-- The fields `t` and `temp` declare themselves, in index order. -/
def ownFields {E S L : Type} (x : Common E S) (lk : LinkDecl L) : List (Field (T E S L)) :=
  (tempFields x).map onTemp ++ outerFields lk

/-- The JSON names of the fields declared in the file, in index order. -/
def ownNames : List Bytes :=
  [ bytesOf "@odata.context", bytesOf "@odata.type", bytesOf "Description",
    bytesOf "HttpPushUri", bytesOf "MultiPartHttpPushUri", bytesOf "ServiceEnabled",
    bytesOf "Status", bytesOf "TransferProtocol", bytesOf "UpdateServiceTarget",
    bytesOf "StartUpdateTarget", bytesOf "OemActions", bytesOf "Oem",
    bytesOf "Actions", bytesOf "FirmwareInventory", bytesOf "SoftwareInventory" ]

/-- All JSON fields of `t`, in index order: the promoted fields of
`temp.Entity` (the deepest, so one whose name a field declared in the file
also carries is hidden), then the fields of `temp`, then those of `t`. -/
def tFields {E S L : Type} (x : Common E S) (lk : LinkDecl L) : List (Field (T E S L)) :=
  ((x.entityFields.filter (fun f => !ownNames.contains f.name)).map
      (fun f => onTemp (onEntity f)))
    ++ ownFields x lk

/-- The call `json.Unmarshal(b, &t)` of line 76 on the zero-valued `t`. -/
def unmarshalT {E S L : Type} (x : Common E S) (lk : LinkDecl L) (b : Bytes) :
    Except DecodeError (T E S L) :=
  match parse b with
  | none => .error .malformed
  | some v => storeStruct (tFields x lk) v (T.zero x lk)

/-- The method `UpdateService.UnmarshalJSON` (lines 53-92): the receiver
before the call and the input; the receiver after the call and the error
returned (`none` is `nil`). -/
def UnmarshalJSON {E S L : Type} (x : Common E S) (lk : LinkDecl L)
    (updateService : UpdateService E S) (b : Bytes) :
    UpdateService E S × Option DecodeError :=
  match unmarshalT x lk b with
  | .error err => (updateService, some err)
  | .ok t =>
    let updateService := t.temp
    let updateService :=
      { updateService with FirmwareInventory := lk.String t.FirmwareInventory }
    let updateService :=
      { updateService with SoftwareInventory := lk.String t.SoftwareInventory }
    let updateService :=
      { updateService with TransferProtocol := t.Actions.SimpleUpdate.AllowableValues }
    let updateService :=
      { updateService with UpdateServiceTarget := t.Actions.SimpleUpdate.Target }
    let updateService := { updateService with StartUpdateTarget := t.Actions.StartUpdate.Target }
    let updateService := { updateService with OemActions := t.Actions.Oem }
    let updateService := { updateService with rawData := b }
    (updateService, none)

/-- The function `GetUpdateService` (lines 95-98). `Get` is the method
`Entity.Get`, promoted from the embedded entity and declared outside the file:
it is given the client, the URI, the decoder of the payload it is handed
(here `UnmarshalJSON`) and the payload's state, and returns the payload's
state after the call and its error. The results are the pointer returned
(`none` is `nil`) and the error. -/
def GetUpdateService {E S L C Err : Type} (x : Common E S) (lk : LinkDecl L)
    (Get : C → Bytes → (UpdateService E S → Bytes → UpdateService E S × Option DecodeError) →
      UpdateService E S → UpdateService E S × Option Err)
    (c : C) (uri : Bytes) : Option (UpdateService E S) × Option Err :=
  let updateService := UpdateService.zero x
  let r := Get c uri (UnmarshalJSON x lk) updateService
  (some r.1, r.2)

/-- The method `SoftwareInventories` (lines 101-103). `GetClient` (a method
of the embedded entity) and `ListReferencedSoftwareInventories` are declared
outside the file. -/
def SoftwareInventories {E S C R : Type} (GetClient : E → C)
    (ListReferencedSoftwareInventories : C → Bytes → R)
    (updateService : UpdateService E S) : R :=
  ListReferencedSoftwareInventories (GetClient updateService.Entity)
    updateService.SoftwareInventory

/-- The method `FirmwareInventories` (lines 106-108). -/
def FirmwareInventories {E S C R : Type} (GetClient : E → C)
    (ListReferencedSoftwareInventories : C → Bytes → R)
    (updateService : UpdateService E S) : R :=
  ListReferencedSoftwareInventories (GetClient updateService.Entity)
    updateService.FirmwareInventory

/-! ## The fetch layer, from the spec -/

/-- The errors of a fetch (spec, section 7): the transport failed, or the
fetched body did not decode. -/
inductive FetchError where
  | transport
  | decode (e : DecodeError)
  deriving DecidableEq, Repr

/-- Modelled from the spec: `Entity.Get`, declared outside the file. Section
4.2: issues a read against the client for the URI, decodes the response body
into the target using the target's decoder, and stores a back-reference from
the target to the client; fails with a transport error or a decode error.
`fetch` is the transport collaborator (`get(uri) -> (bytes, error)`). -/
def Entity.Get {C U : Type} (fetch : C → Bytes → Except FetchError Bytes)
    (SetClient : C → U → U) (c : C) (uri : Bytes)
    (decode : U → Bytes → U × Option DecodeError) (target : U) : U × Option FetchError :=
  match fetch c uri with
  | .error e => (target, some e)
  | .ok body =>
    match decode target body with
    | (target1, some e) => (target1, some (.decode e))
    | (target1, none) => (SetClient c target1, none)

/-- What a listing did: the URIs it requested from the client, in order, and
its result. -/
structure Listing (M : Type) where
  requests : List Bytes
  result : Except FetchError (List M)

/-- The links of a collection envelope: the `Members` array of the body. -/
def collectionMembers (body : Bytes) : Except DecodeError (List Bytes) :=
  match parse body with
  | none => .error .malformed
  | some v =>
    match v.member? (bytesOf "Members") with
    | some (.array _ es) => es.mapM Link.decode
    | _ => .error .typeMismatch

/-- Fetches and decodes the members of a collection in order, stopping at
the first failure. -/
def fetchMembers {C M : Type} (fetch : C → Bytes → Except FetchError Bytes)
    (decodeMember : Bytes → Except DecodeError M) (c : C) : List Bytes → Listing M
  | [] => ⟨[], .ok []⟩
  | u :: us =>
    match fetch c u with
    | .error e => ⟨[u], .error e⟩
    | .ok body =>
      match decodeMember body with
      | .error e => ⟨[u], .error (.decode e)⟩
      | .ok m =>
        let r := fetchMembers fetch decodeMember c us
        ⟨u :: r.requests, r.result.map (fun l => m :: l)⟩

/-- Modelled from the spec: `ListReferencedSoftwareInventories`, declared
outside the file. Section 4.4: if the collection URI is empty, return an
empty sequence with no error; otherwise fetch the collection envelope, decode
its members and fetch each one in order; any failure fails the whole call. -/
def ListReferenced {C M : Type} (fetch : C → Bytes → Except FetchError Bytes)
    (decodeMember : Bytes → Except DecodeError M) (c : C) (collectionURI : Bytes) :
    Listing M :=
  if collectionURI = [] then ⟨[], .ok []⟩
  else
    match fetch c collectionURI with
    | .error e => ⟨[collectionURI], .error e⟩
    | .ok body =>
      match collectionMembers body with
      | .error e => ⟨[collectionURI], .error (.decode e)⟩
      | .ok links =>
        let r := fetchMembers fetch decodeMember c links
        ⟨collectionURI :: r.requests, r.result⟩

/-! ## Reading a payload by member names -/

/-- The members of an object whose name equals `name` up to letter case:
those the decoder can take for a field called `name`. -/
def named (name : Bytes) (ms : List (Bytes × JValue)) : List (Bytes × JValue) :=
  ms.filter (fun m => foldName m.1 == foldName name)

/-- In the object `v` the name `name` is spelled exactly so wherever it
occurs up to letter case, and occurs at most once. Holds of what is not an
object. -/
def plainIn (name : Bytes) (v : Option JValue) : Bool :=
  match v with
  | some (.object _ ms) =>
    decide ((named name ms).length ≤ 1) && (named name ms).all (fun m => m.1 == name)
  | _ => true

/-- The member `name` of an object, if there is one. -/
def child (v : Option JValue) (name : Bytes) : Option JValue :=
  v.bind (fun w => w.member? name)

/-- The text of a string member; empty for an absent or `null` member. -/
def textOf : Option JValue → Bytes
  | some (.string _ s) => s
  | _ => []

/-- The texts of an array member, in order; empty for an absent or `null`
member. -/
def textsOf : Option JValue → List Bytes
  | some (.array _ es) => es.map (fun e => textOf (some e))
  | _ => []

/-- The input text of a member's value; empty for an absent member. -/
def rawOf : Option JValue → Bytes
  | some w => w.raw
  | none => []

/-- The URI of a link member: the string itself, or `@odata.id` of the link
object; empty for an absent member. -/
def uriOf : Option JValue → Bytes
  | some (.string _ s) => s
  | some (.object raw ms) => textOf ((JValue.object raw ms).member? odataIdKey)
  | _ => []

/-- The name of the actions member. -/
def nActions : Bytes := bytesOf "Actions"

/-- The name of the simple-update action. -/
def nSimpleUpdate : Bytes := bytesOf "#UpdateService.SimpleUpdate"

/-- The name of the start-update action. -/
def nStartUpdate : Bytes := bytesOf "#UpdateService.StartUpdate"

/-- The name of an action's target. -/
def nTarget : Bytes := bytesOf "Target"

/-- The name of the allowable transfer protocols of the simple-update action. -/
def nAllowable : Bytes := bytesOf "TransferProtocol@Redfish.AllowableValues"

/-- The name of the vendor extension member. -/
def nOem : Bytes := bytesOf "Oem"

/-- The name of the firmware inventory link. -/
def nFirmwareInventory : Bytes := bytesOf "FirmwareInventory"

/-- The name of the software inventory link. -/
def nSoftwareInventory : Bytes := bytesOf "SoftwareInventory"

/-- The four top-level names whose fields `UnmarshalJSON` overwrites from
the `Actions` object (lines 85-88). -/
def overwrittenNames : List Bytes :=
  [bytesOf "TransferProtocol", bytesOf "UpdateServiceTarget",
   bytesOf "StartUpdateTarget", bytesOf "OemActions"]

/-- The members of an object other than those named by `overwrittenNames`. -/
def withoutOverwritten (ms : List (Bytes × JValue)) : List (Bytes × JValue) :=
  ms.filter (fun m => !overwrittenNames.contains m.1)

/-- An entity with its stored raw payload left out of the comparison. -/
def UpdateService.withoutRaw {E S : Type} (u : UpdateService E S) : UpdateService E S :=
  { u with rawData := [] }

/-- The state of `t` without the four fields of `temp` that are overwritten. -/
def T.core {E S L : Type} (t : T E S L) : T E S L :=
  { t with temp := { t.temp with TransferProtocol := StringSlice.zero, UpdateServiceTarget := [],
                                 StartUpdateTarget := [], OemActions := [] } }

/-- The state of `t` without its two links. -/
def T.linkless {E S : Type} (t : T E S Bytes) : T E S Bytes :=
  { t with FirmwareInventory := [], SoftwareInventory := [] }

/-- The members of an object other than the two links. -/
def withoutLinks (ms : List (Bytes × JValue)) : List (Bytes × JValue) :=
  ms.filter (fun m => !(m.1 == nFirmwareInventory || m.1 == nSoftwareInventory))

/-- The members of an object value lie within the text of the object. -/
def membersWithin (v : JValue) : Prop :=
  ∀ raw ms, v = .object raw ms → ∀ m ∈ ms, m.2.raw <:+: raw

/-- Stores an optional member with the store of a field: nothing is stored
for an absent member. -/
def storeOpt {α : Type} (st : JValue → α → Except DecodeError α) (o : Option JValue) (a : α) :
    Except DecodeError α :=
  match o with
  | none => .ok a
  | some v => st v a

/-- The members of a payload that is an object; none otherwise. -/
def members : Option JValue → List (Bytes × JValue)
  | some (.object _ ms) => ms
  | _ => []

/-- The names that lead to the action members are plain: `Actions` among the
top-level members, the two action names among the members of `Actions`,
`Target` and the allowable-values name among the members of each action. -/
def actionsPlain (v : Option JValue) : Bool :=
  plainIn nActions v
    && plainIn nSimpleUpdate (child v nActions)
    && plainIn nStartUpdate (child v nActions)
    && plainIn nTarget (child (child v nActions) nSimpleUpdate)
    && plainIn nAllowable (child (child v nActions) nSimpleUpdate)
    && plainIn nTarget (child (child v nActions) nStartUpdate)

/-- The link field of an entity that a link name stands for. -/
def linkField {E S : Type} (name : Bytes) (u : UpdateService E S) : Bytes :=
  if name = nFirmwareInventory then u.FirmwareInventory else u.SoftwareInventory

/-! ## Scenarios -/

/-- A client handle of the scenarios: the bodies a service answers with,
by URI. -/
structure Client where
  served : List (Bytes × Bytes)

/-- Modelled from the spec: the transport collaborator of section 6,
`get(uri) -> (bytes, error)`, declared outside the file. In the scenarios a
URI that the client does not serve fails with a transport error. -/
def Client.fetch (c : Client) (uri : Bytes) : Except FetchError Bytes :=
  match c.served.lookup uri with
  | some body => .ok body
  | none => .error .transport

/-- Modelled from the spec: `common.Entity`, declared outside the file.
Section 2, Entity Base: the identity fields shared by every resource (odata
id, name) and the client handle; the odata type is the field that
`UpdateService` declares itself (line 20). -/
structure Entity where
  ODataID : Bytes
  Name : Bytes
  client : Client

/-- The entity of the scenarios before anything is stored into it: no
identity, and a client handle that serves nothing. -/
def Entity.zero : Entity := { ODataID := [], Name := [], client := ⟨[]⟩ }

/-- The JSON fields of the scenario entity. -/
def Entity.fields : List (Field Entity) :=
  [ { name := bytesOf "@odata.id",
      store := fun v e => (storeString v e.ODataID).map (fun a => { e with ODataID := a }) },
    { name := bytesOf "Name",
      store := fun v e => (storeString v e.Name).map (fun a => { e with Name := a }) } ]

/-- The declarations of package `common` in the scenarios: the entity above,
and a `Status` that keeps the text of its member as it is. -/
def scenarioCommon : Common Entity Bytes :=
  { entityZero := Entity.zero, entityFields := Entity.fields,
    statusZero := [], storeStatus := storeRaw }

/-- The zero-valued target of the scenarios. -/
def fresh : UpdateService Entity Bytes := UpdateService.zero scenarioCommon

/-- `UnmarshalJSON` in the scenarios: the scenario entity, and the link of
the spec. -/
abbrev decodeInto (updateService : UpdateService Entity Bytes) (b : Bytes) :
    UpdateService Entity Bytes × Option DecodeError :=
  UnmarshalJSON scenarioCommon Link.spec updateService b

/-- The method `GetClient` of the scenario entity. -/
def Entity.GetClient (e : Entity) : Client := e.client

/-- The method `SetClient` of the scenario entity, on the resource that
embeds it. -/
def SetClient (c : Client) (u : UpdateService Entity Bytes) : UpdateService Entity Bytes :=
  { u with Entity := { u.Entity with client := c } }

/-- The scenario payload of the spec (section 8). -/
def scenario : Bytes := bytesOf
  "\x7b\"@odata.id\":\"/x\",\"Actions\":\x7b\"#UpdateService.SimpleUpdate\":\x7b\"Target\":\"/x/Actions/SimpleUpdate\",\"TransferProtocol@Redfish.AllowableValues\":[\"HTTP\",\"HTTPS\"]\x7d\x7d,\"FirmwareInventory\":\x7b\"@odata.id\":\"/x/Fw\"\x7d\x7d"

/-- The scenario payload without its link member. -/
def scenarioLinkless : Bytes := bytesOf
  "\x7b\"@odata.id\":\"/x\",\"Actions\":\x7b\"#UpdateService.SimpleUpdate\":\x7b\"Target\":\"/x/Actions/SimpleUpdate\",\"TransferProtocol@Redfish.AllowableValues\":[\"HTTP\",\"HTTPS\"]\x7d\x7d\x7d"

/-- A payload whose only action is spelled in lower case. -/
def lowerActions : Bytes := bytesOf
  "\x7b\"actions\":\x7b\"#UpdateService.SimpleUpdate\":\x7b\"Target\":\"/t\"\x7d\x7d\x7d"

/-- A payload whose only link is spelled in lower case. -/
def lowerLink : Bytes := bytesOf
  "\x7b\"firmwareinventory\":\x7b\"@odata.id\":\"/x/Fw\"\x7d\x7d"

/-- A payload whose software inventory link is spelled in lower case. -/
def lowerSoftware : Bytes := bytesOf
  "\x7b\"softwareinventory\":\x7b\"@odata.id\":\"/s\"\x7d\x7d"

/-- A payload whose vendor extension is spelled in lower case. -/
def lowerOem : Bytes := bytesOf "\x7b\"oem\":1\x7d"

/-- A payload with the actions twice, the second time in lower case. -/
def mixedActions : Bytes := bytesOf
  "\x7b\"Actions\":\x7b\"#UpdateService.SimpleUpdate\":\x7b\"Target\":\"/a\"\x7d\x7d,\"actions\":\x7b\"#UpdateService.SimpleUpdate\":\x7b\"Target\":\"/b\"\x7d\x7d\x7d"

/-- A payload with the vendor extension twice, the second time in lower
case. -/
def mixedOem : Bytes := bytesOf "\x7b\"Oem\":1,\"oem\":2\x7d"

/-- A payload with a vendor extension, and a vendor extension of another
content under `Actions`. -/
def withOem : Bytes := bytesOf
  "\x7b\"Oem\": \x7b \"Vendor\" : [1, 2] \x7d ,\"Actions\":\x7b\"Oem\":\x7b\"#Vendor.Reset\":\x7b\"target\":\"/v\"\x7d\x7d\x7d\x7d"

/-- A payload with a vendor action directly under `Actions`. -/
def vendorAction : Bytes := bytesOf
  "\x7b\"Actions\":\x7b\"#Vendor.Reset\":\x7b\"Target\":\"/v\"\x7d\x7d\x7d"

/-- A payload cut short. -/
def truncated : Bytes := bytesOf "\x7b\"@odata.id\":"

/-- A payload with a string where a boolean is declared. -/
def mismatched : Bytes := bytesOf
  "\x7b\"Description\":\"d\",\"ServiceEnabled\":\"yes\"\x7d"

/-- The payload with the one top-level member `UpdateServiceTarget`. -/
def shadowOnly : Bytes := bytesOf "\x7b\"UpdateServiceTarget\":\"/t\"\x7d"

/-- The empty object. -/
def emptyObject : Bytes := bytesOf "\x7b\x7d"

/-- A payload with a top-level member named like an overwritten field. -/
def shadowing : Bytes := bytesOf
  "\x7b\"UpdateServiceTarget\":\"/t\",\"Description\":\"d\"\x7d"

/-- The payload `shadowing` without that member. -/
def shadowingNot : Bytes := bytesOf "\x7b\"Description\":\"d\"\x7d"

/-- A payload whose firmware inventory link is a bare string. -/
def bareLink : Bytes := bytesOf "\x7b\"FirmwareInventory\":\"/x/Fw\"\x7d"

/-- The payload `bareLink` with the link as a link object. -/
def objectLink : Bytes := bytesOf
  "\x7b\"FirmwareInventory\":\x7b\"@odata.id\":\"/x/Fw\"\x7d\x7d"

/-- The payload `bareLink` with a second member of the same name in lower
case. -/
def repeatedBare : Bytes := bytesOf
  "\x7b\"FirmwareInventory\":\"/u\",\"firmwareinventory\":\"/v\"\x7d"

/-- The payload `repeatedBare` with its first link as a link object. -/
def repeatedObject : Bytes := bytesOf
  "\x7b\"FirmwareInventory\":\x7b\"@odata.id\":\"/u\"\x7d,\"firmwareinventory\":\"/v\"\x7d"

/-- The URI the scenarios fetch the update service from. -/
def serviceURI : Bytes := bytesOf "/redfish/v1/UpdateService"

/-- A URI that no client of the scenarios serves. -/
def unservedURI : Bytes := bytesOf "/redfish/v1/Nowhere"

/-- A client that serves the payload `lowerSoftware` at `serviceURI`. -/
def lowerSoftwareClient : Client := ⟨[(serviceURI, lowerSoftware)]⟩

/-- A client that serves the payload `truncated` at `serviceURI`. -/
def truncatedClient : Client := ⟨[(serviceURI, truncated)]⟩

/-- `GetUpdateService` in the scenarios, with the fetch of the spec. -/
abbrev getService (c : Client) (uri : Bytes) :
    Option (UpdateService Entity Bytes) × Option FetchError :=
  GetUpdateService scenarioCommon Link.spec (Entity.Get Client.fetch SetClient) c uri

/-- The decoder of a collection member in the scenarios: the body itself. -/
def bodyOnly (body : Bytes) : Except DecodeError Bytes := .ok body

/-! ## The reader: what is read is a part of the input -/

/-- What `skipSpace` leaves is an end of its input. -/
theorem skipSpace_suffix : ∀ i : Bytes, ∃ p, i = p ++ skipSpace i := by
  intro i
  induction i with
  | nil => exact ⟨[], rfl⟩
  | cons c cs ih =>
    simp only [skipSpace]
    split
    · obtain ⟨p, hp⟩ := ih
      exact ⟨c :: p, by rw [List.cons_append, ← hp]⟩
    · exact ⟨[], rfl⟩

/-- What `scanString` leaves is an end of its input. -/
theorem scanString_suffix : ∀ (n : Nat) (body rest : Bytes),
    scanString n body = some rest → ∃ p, body = p ++ rest := by
  intro n
  induction n with
  | zero => intro body rest h; simp [scanString] at h
  | succ n ih =>
    intro body rest h
    cases body with
    | nil => simp [scanString] at h
    | cons c cs =>
      simp only [scanString] at h
      split at h
      · cases h; exact ⟨[c], rfl⟩
      · split at h
        · cases cs with
          | nil => simp at h
          | cons e rest1 =>
            dsimp only at h
            split at h
            · cases rest1 with
              | nil => simp at h
              | cons h1 t1 =>
                cases t1 with
                | nil => simp at h
                | cons h2 t2 =>
                  cases t2 with
                  | nil => simp at h
                  | cons h3 t3 =>
                    cases t3 with
                    | nil => simp at h
                    | cons h4 rest2 =>
                      dsimp only at h
                      split at h
                      · obtain ⟨p, hp⟩ := ih rest2 rest h
                        exact ⟨c :: e :: h1 :: h2 :: h3 :: h4 :: p, by simp [hp]⟩
                      · cases h
            · split at h
              · obtain ⟨p, hp⟩ := ih rest1 rest h
                exact ⟨c :: e :: p, by simp [hp]⟩
              · cases h
        · split at h
          · cases h
          · obtain ⟨p, hp⟩ := ih cs rest h
            exact ⟨c :: p, by simp [hp]⟩

/-- What `skipDigits` leaves is an end of its input. -/
theorem skipDigits_suffix : ∀ i : Bytes, ∃ p, i = p ++ skipDigits i := by
  intro i
  induction i with
  | nil => exact ⟨[], rfl⟩
  | cons c cs ih =>
    simp only [skipDigits]
    split
    · obtain ⟨p, hp⟩ := ih
      exact ⟨c :: p, by rw [List.cons_append, ← hp]⟩
    · exact ⟨[], rfl⟩

/-- What `scanDigits1` leaves is an end of its input. -/
theorem scanDigits1_suffix (i r : Bytes) (h : scanDigits1 i = some r) : ∃ p, i = p ++ r := by
  cases i with
  | nil => simp [scanDigits1] at h
  | cons c cs =>
    simp only [scanDigits1] at h
    split at h
    · cases h
      obtain ⟨p, hp⟩ := skipDigits_suffix cs
      exact ⟨c :: p, by rw [List.cons_append, ← hp]⟩
    · cases h

/-- What `scanExp` leaves is an end of its input. -/
theorem scanExp_suffix (i r : Bytes) (h : scanExp i = some r) : ∃ p, i = p ++ r := by
  cases i with
  | nil => simp [scanExp] at h; exact ⟨[], by simp [h]⟩
  | cons c cs =>
    simp only [scanExp] at h
    split at h
    · cases cs with
      | nil => simp at h
      | cons s ds =>
        dsimp only at h
        split at h
        · obtain ⟨p, hp⟩ := scanDigits1_suffix _ _ h
          exact ⟨c :: s :: p, by simp [hp]⟩
        · obtain ⟨p, hp⟩ := scanDigits1_suffix _ _ h
          exact ⟨c :: p, by rw [List.cons_append, ← hp]⟩
    · cases h; exact ⟨[], rfl⟩

/-- What `scanFrac` leaves is an end of its input. -/
theorem scanFrac_suffix (i r : Bytes) (h : scanFrac i = some r) : ∃ p, i = p ++ r := by
  cases i with
  | nil => simp [scanFrac] at h; exact ⟨[], by simp [h]⟩
  | cons c cs =>
    simp only [scanFrac] at h
    split at h
    · split at h
      · rename_i r1 h1
        obtain ⟨p, hp⟩ := scanDigits1_suffix _ _ h1
        obtain ⟨q, hq⟩ := scanExp_suffix _ _ h
        exact ⟨c :: (p ++ q), by simp [hp, hq]⟩
      · cases h
    · exact scanExp_suffix _ _ h

/-- What `scanInt` leaves is an end of its input. -/
theorem scanInt_suffix (i r : Bytes) (h : scanInt i = some r) : ∃ p, i = p ++ r := by
  cases i with
  | nil => simp [scanInt] at h
  | cons c cs =>
    simp only [scanInt] at h
    split at h
    · obtain ⟨p, hp⟩ := scanFrac_suffix _ _ h
      exact ⟨c :: p, by rw [List.cons_append, ← hp]⟩
    · split at h
      · obtain ⟨p, hp⟩ := skipDigits_suffix cs
        obtain ⟨q, hq⟩ := scanFrac_suffix _ _ h
        exact ⟨c :: (p ++ q), by rw [List.cons_append, List.append_assoc, ← hq, ← hp]⟩
      · cases h

/-- What `scanNumber` leaves is an end of its input. -/
theorem scanNumber_suffix (i r : Bytes) (h : scanNumber i = some r) : ∃ p, i = p ++ r := by
  cases i with
  | nil => simp [scanNumber] at h
  | cons c cs =>
    simp only [scanNumber] at h
    split at h
    · obtain ⟨p, hp⟩ := scanInt_suffix _ _ h
      exact ⟨c :: p, by rw [List.cons_append, ← hp]⟩
    · exact scanInt_suffix _ _ h

/-- The part read of `p ++ r` when `r` is left is `p`. -/
theorem consumed_append (p r : Bytes) : consumed (p ++ r) r = p := by
  simp [consumed]

/-- An expected word that is found starts the input. -/
theorem expect_eq (w i r : Bytes) (h : expect w i = some r) : i = w ++ r := by
  simp only [expect] at h
  split at h
  · rename_i hp
    cases h
    rw [List.isPrefixOf_iff_prefix] at hp
    obtain ⟨t, rfl⟩ := hp
    simp
  · cases h

/-- What `parseString` leaves is an end of its input. -/
theorem parseString_suffix (body key rest : Bytes) (h : parseString body = some (key, rest)) :
    ∃ p, body = p ++ rest := by
  simp only [parseString] at h
  split at h
  · cases h
  · rename_i r hr
    cases h
    exact scanString_suffix _ _ _ hr

/-- What `parseElems` leaves is an end of its input. -/
theorem parseElems_suffix (pv : Bytes → Option (JValue × Bytes))
    (hpv : ∀ i v r, pv i = some (v, r) → ∃ p, i = p ++ r) :
    ∀ (n : Nat) (i : Bytes) (vs : List JValue) (r : Bytes),
      parseElems pv n i = some (vs, r) → ∃ p, i = p ++ r := by
  intro n
  induction n with
  | zero => intro i vs r h; simp [parseElems] at h
  | succ n ih =>
    intro i vs r h
    simp only [parseElems] at h
    split at h
    · cases h
    · rename_i v rest hv
      obtain ⟨w0, hw0⟩ := skipSpace_suffix i
      obtain ⟨p1, hp1⟩ := hpv _ _ _ hv
      obtain ⟨w1, hw1⟩ := skipSpace_suffix rest
      split at h
      · rename_i c rest1 hs
        rw [hs] at hw1
        split at h
        · split at h
          · cases h
          · rename_i vs1 r1 hr
            cases h
            obtain ⟨p2, hp2⟩ := ih _ _ _ hr
            exact ⟨w0 ++ p1 ++ w1 ++ c :: p2, by
              rw [hw0, hp1, hw1, hp2]; simp⟩
        · split at h
          · cases h
            exact ⟨w0 ++ p1 ++ w1 ++ [c], by rw [hw0, hp1, hw1]; simp⟩
          · cases h
      · cases h

/-- Member values read by `parseMembers` lie within the text read, when each
value read is followed in the input by the rest. -/
theorem parseMembers_within (pv : Bytes → Option (JValue × Bytes))
    (hpv : ∀ i v r, pv i = some (v, r) → i = v.raw ++ r ∧ membersWithin v) :
    ∀ (n : Nat) (i : Bytes) (ms : List (Bytes × JValue)) (r : Bytes),
      parseMembers pv n i = some (ms, r) →
      ∃ p, i = p ++ r ∧ ∀ m ∈ ms, m.2.raw <:+: p ∧ membersWithin m.2 := by
  intro n
  induction n with
  | zero => intro i ms r h; simp [parseMembers] at h
  | succ n ih =>
    intro i ms r h
    simp only [parseMembers] at h
    obtain ⟨w0, hw0⟩ := skipSpace_suffix i
    split at h
    · rename_i q body hq
      rw [hq] at hw0
      split at h
      · split at h
        · cases h
        · rename_i key rest hk
          obtain ⟨pk, hpk⟩ := parseString_suffix _ _ _ hk
          obtain ⟨w1, hw1⟩ := skipSpace_suffix rest
          split at h
          · rename_i c rest1 hc
            rw [hc] at hw1
            split at h
            · obtain ⟨w2, hw2⟩ := skipSpace_suffix rest1
              split at h
              · cases h
              · rename_i v rest2 hv
                obtain ⟨hraw, hwithin⟩ := hpv _ _ _ hv
                obtain ⟨w3, hw3⟩ := skipSpace_suffix rest2
                split at h
                · rename_i d rest3 hd
                  rw [hd] at hw3
                  split at h
                  · split at h
                    · cases h
                    · rename_i ms1 r1 hr
                      cases h
                      obtain ⟨p2, hp2, hms⟩ := ih _ _ _ hr
                      refine ⟨w0 ++ q :: pk ++ w1 ++ c :: w2 ++ v.raw ++ w3 ++ d :: p2, ?_, ?_⟩
                      · rw [hw0, hpk, hw1, hw2, hraw, hw3, hp2]; simp
                      · intro m hm
                        rcases List.mem_cons.mp hm with rfl | hm
                        · refine ⟨?_, hwithin⟩
                          exact ⟨w0 ++ q :: pk ++ w1 ++ c :: w2, w3 ++ d :: p2, by simp⟩
                        · obtain ⟨⟨a, z, haz⟩, hw⟩ := hms m hm
                          refine ⟨⟨w0 ++ q :: pk ++ w1 ++ c :: w2 ++ v.raw ++ w3 ++ d :: a, z, ?_⟩, hw⟩
                          rw [← haz]; simp
                  · split at h
                    · cases h
                      refine ⟨w0 ++ q :: pk ++ w1 ++ c :: w2 ++ v.raw ++ w3 ++ [d], ?_, ?_⟩
                      · rw [hw0, hpk, hw1, hw2, hraw, hw3]; simp
                      · intro m hm
                        rw [List.mem_singleton] at hm
                        subst hm
                        refine ⟨?_, hwithin⟩
                        exact ⟨w0 ++ q :: pk ++ w1 ++ c :: w2, w3 ++ [d], by simp⟩
                    · cases h
                · cases h
            · cases h
          · cases h
      · cases h
    · cases h

/-- A value that is not an object has no members to place. -/
theorem membersWithin_scalar (v : JValue) (h : ∀ raw ms, v ≠ .object raw ms) :
    membersWithin v :=
  fun raw ms e => absurd e (h raw ms)

/-- The input of `parseValue` is the text of the value read, then the rest; the
members of an object read lie within its text. -/
theorem parseValue_reads : ∀ (d : Nat) (i : Bytes) (v : JValue) (r : Bytes),
    parseValue d i = some (v, r) → i = v.raw ++ r ∧ membersWithin v := by
  intro d
  induction d with
  | zero =>
    intro i v r h
    cases i with
    | nil => simp [parseValue] at h
    | cons c rest =>
      simp only [parseValue] at h
      split at h
      · split at h
        · cases h
        · rename_i body r1 hb
          cases h
          obtain ⟨p, hp⟩ := parseString_suffix _ _ _ hb
          refine ⟨?_, membersWithin_scalar _ (by intro _ _ e; cases e)⟩
          rw [hp, ← List.cons_append, JValue.raw, consumed_append]
      · split at h
        · cases h
        · split at h
          · cases h
          · split at h
            · split at h
              · cases h
              · rename_i r1 he
                cases h
                refine ⟨?_, membersWithin_scalar _ (by intro _ _ e; cases e)⟩
                rw [expect_eq _ _ _ he]; subst_vars; rfl
            · split at h
              · split at h
                · cases h
                · rename_i r1 he
                  cases h
                  refine ⟨?_, membersWithin_scalar _ (by intro _ _ e; cases e)⟩
                  rw [expect_eq _ _ _ he]; subst_vars; rfl
              · split at h
                · split at h
                  · cases h
                  · rename_i r1 he
                    cases h
                    refine ⟨?_, membersWithin_scalar _ (by intro _ _ e; cases e)⟩
                    rw [expect_eq _ _ _ he]; subst_vars; rfl
                · split at h
                  · cases h
                  · rename_i r1 hn
                    cases h
                    obtain ⟨p, hp⟩ := scanNumber_suffix _ _ hn
                    refine ⟨?_, membersWithin_scalar _ (by intro _ _ e; cases e)⟩
                    rw [hp, JValue.raw, consumed_append]
  | succ d ih =>
    intro i v r h
    cases i with
    | nil => simp [parseValue] at h
    | cons c rest =>
      simp only [parseValue] at h
      split at h
      · split at h
        · cases h
        · rename_i body r1 hb
          cases h
          obtain ⟨p, hp⟩ := parseString_suffix _ _ _ hb
          refine ⟨?_, membersWithin_scalar _ (by intro _ _ e; cases e)⟩
          rw [hp, ← List.cons_append, JValue.raw, consumed_append]
      · split at h
        · obtain ⟨w, hw⟩ := skipSpace_suffix rest
          split at h
          · rename_i r1 hs
            cases h
            rw [hs] at hw
            refine ⟨?_, ?_⟩
            · rw [hw]
              have : c :: (w ++ 125 :: r) = (c :: w ++ [125]) ++ r := by simp
              rw [this, JValue.raw, consumed_append]
            · intro raw ms e m hm
              cases e
              cases hm
          · split at h
            · cases h
            · rename_i ms r1 hm
              cases h
              obtain ⟨p, hp, hms⟩ := parseMembers_within (parseValue d) ih _ _ _ _ hm
              have hi : c :: rest = (c :: w ++ p) ++ r := by rw [hw, hp]; simp
              refine ⟨?_, ?_⟩
              · rw [hi, JValue.raw, consumed_append]
              · intro raw ms1 e m hmem
                cases e
                rw [hi, consumed_append]
                obtain ⟨a, z, haz⟩ := (hms m hmem).1
                exact ⟨c :: w ++ a, z, by rw [← haz]; simp⟩
        · split at h
          · obtain ⟨w, hw⟩ := skipSpace_suffix rest
            split at h
            · rename_i r1 hs
              cases h
              rw [hs] at hw
              refine ⟨?_, membersWithin_scalar _ (by intro _ _ e; cases e)⟩
              rw [hw]
              have : c :: (w ++ 93 :: r) = (c :: w ++ [93]) ++ r := by simp
              rw [this, JValue.raw, consumed_append]
            · split at h
              · cases h
              · rename_i vs r1 hm
                cases h
                obtain ⟨p, hp⟩ := parseElems_suffix (parseValue d)
                  (fun i v r hv => ⟨v.raw, (ih i v r hv).1⟩) _ _ _ _ hm
                have hi : c :: rest = (c :: w ++ p) ++ r := by rw [hw, hp]; simp
                refine ⟨?_, membersWithin_scalar _ (by intro _ _ e; cases e)⟩
                rw [hi, JValue.raw, consumed_append]
          · split at h
            · split at h
              · cases h
              · rename_i r1 he
                cases h
                refine ⟨?_, membersWithin_scalar _ (by intro _ _ e; cases e)⟩
                rw [expect_eq _ _ _ he]; subst_vars; rfl
            · split at h
              · split at h
                · cases h
                · rename_i r1 he
                  cases h
                  refine ⟨?_, membersWithin_scalar _ (by intro _ _ e; cases e)⟩
                  rw [expect_eq _ _ _ he]; subst_vars; rfl
              · split at h
                · split at h
                  · cases h
                  · rename_i r1 he
                    cases h
                    refine ⟨?_, membersWithin_scalar _ (by intro _ _ e; cases e)⟩
                    rw [expect_eq _ _ _ he]; subst_vars; rfl
                · split at h
                  · cases h
                  · rename_i r1 hn
                    cases h
                    obtain ⟨p, hp⟩ := scanNumber_suffix _ _ hn
                    refine ⟨?_, membersWithin_scalar _ (by intro _ _ e; cases e)⟩
                    rw [hp, JValue.raw, consumed_append]

/-- The members of the members of an object read lie within their texts. -/
theorem parseValue_members : ∀ (d : Nat) (i : Bytes) (raw : Bytes)
    (ms : List (Bytes × JValue)) (r : Bytes),
    parseValue d i = some (.object raw ms, r) → ∀ m ∈ ms, membersWithin m.2 := by
  intro d i raw ms r h
  cases i with
  | nil => simp [parseValue] at h
  | cons c rest =>
    cases d with
    | zero =>
      simp only [parseValue] at h
      repeat' split at h
      all_goals cases h
    | succ d =>
      simp only [parseValue] at h
      split at h
      · split at h <;> cases h
      · split at h
        · split at h
          · cases h
            intro m hm
            cases hm
          · split at h
            · cases h
            · rename_i ms1 r1 hm
              cases h
              obtain ⟨p, -, hms⟩ := parseMembers_within (parseValue d)
                (parseValue_reads d) _ _ _ _ hm
              exact fun m hmem => (hms m hmem).2
        · repeat' split at h
          all_goals cases h

/-- The text of a parsed payload is a part of the input, and members lie within
their objects, two levels down. -/
theorem parse_reads (b : Bytes) (v : JValue) (h : parse b = some v) :
    v.raw <:+: b ∧ membersWithin v
    ∧ ∀ raw ms, v = .object raw ms → ∀ m ∈ ms, membersWithin m.2 := by
  simp only [parse] at h
  split at h
  · cases h
  · rename_i v1 rest hv
    split at h
    · cases h
      obtain ⟨w, hw⟩ := skipSpace_suffix b
      obtain ⟨hr, hm⟩ := parseValue_reads _ _ _ _ hv
      refine ⟨⟨w, rest, ?_⟩, hm, ?_⟩
      · rw [hw, hr]; simp
      · intro raw ms e
        subst e
        exact parseValue_members _ _ _ _ _ hv
    · cases h

/-- A member found by name is a member of an object. -/
theorem member_mem (v : JValue) (n : Bytes) (w : JValue) (h : v.member? n = some w) :
    ∃ raw ms, v = .object raw ms ∧ ∃ m ∈ ms, m.2 = w := by
  cases v with
  | object raw ms =>
    simp only [JValue.member?, Option.map_eq_some'] at h
    obtain ⟨m, hm, rfl⟩ := h
    exact ⟨raw, ms, rfl, m, List.mem_of_find?_eq_some hm, rfl⟩
  | null => simp [JValue.member?] at h
  | bool c => simp [JValue.member?] at h
  | number r => simp [JValue.member?] at h
  | string r t => simp [JValue.member?] at h
  | array r es => simp [JValue.member?] at h

/-- The text of a top-level member is a part of the payload. -/
theorem rawOf_child_infix (b n : Bytes) : rawOf (child (parse b) n) <:+: b := by
  cases hp : parse b with
  | none => exact List.nil_infix
  | some v =>
    cases hc : v.member? n with
    | none => simp only [child, Option.bind, hc, rawOf]; exact List.nil_infix
    | some w =>
      simp only [child, Option.bind, hc, rawOf]
      obtain ⟨hv, hm, -⟩ := parse_reads b v hp
      obtain ⟨raw, ms, rfl, m, hmem, rfl⟩ := member_mem v n w hc
      exact (hm raw ms rfl m hmem).trans hv

/-- The text of a member of a top-level member is a part of the payload. -/
theorem rawOf_child_child_infix (b n1 n2 : Bytes) :
    rawOf (child (child (parse b) n1) n2) <:+: b := by
  cases hp : parse b with
  | none => exact List.nil_infix
  | some v =>
    cases hc : v.member? n1 with
    | none => simp only [child, Option.bind, hc, rawOf]; exact List.nil_infix
    | some w =>
      cases hc2 : w.member? n2 with
      | none => simp only [child, Option.bind, hc, hc2, rawOf]; exact List.nil_infix
      | some w2 =>
        simp only [child, Option.bind, hc, hc2, rawOf]
        obtain ⟨hv, hm, hmm⟩ := parse_reads b v hp
        obtain ⟨raw, ms, rfl, m, hmem, rfl⟩ := member_mem v n1 w hc
        obtain ⟨raw2, ms2, e2, m2, hmem2, rfl⟩ := member_mem _ n2 w2 hc2
        have h1 := hmm raw ms rfl m hmem raw2 ms2 e2 m2 hmem2
        have h2 := hm raw ms rfl m hmem
        rw [e2] at h2
        exact (h1.trans h2).trans hv

/-! ## The reader: the fuel of its loops is enough -/

/-- The fuel of `scanString` is enough once it exceeds the length of the
input: more fuel changes nothing. -/
theorem scanString_fuel : ∀ (n m : Nat) (body : Bytes),
    body.length < n → body.length < m → scanString n body = scanString m body := by
  intro n
  induction n with
  | zero => intro m body h; omega
  | succ n ih =>
    intro m body hn hm
    cases m with
    | zero => omega
    | succ m =>
      cases body with
      | nil => rfl
      | cons c rest =>
        simp only [List.length_cons] at hn hm
        simp only [scanString]
        split
        · rfl
        · split
          · cases rest with
            | nil => rfl
            | cons e rest1 =>
              simp only [List.length_cons] at hn hm
              dsimp only
              split
              · cases rest1 with
                | nil => rfl
                | cons h1 t1 =>
                  cases t1 with
                  | nil => rfl
                  | cons h2 t2 =>
                    cases t2 with
                    | nil => rfl
                    | cons h3 t3 =>
                      cases t3 with
                      | nil => rfl
                      | cons h4 rest2 =>
                        simp only [List.length_cons] at hn hm
                        dsimp only
                        split
                        · exact ih m rest2 (by omega) (by omega)
                        · rfl
              · split
                · exact ih m rest1 (by omega) (by omega)
                · rfl
          · split
            · rfl
            · exact ih m rest (by omega) (by omega)

/-- The fuel of `unquote` is enough once it reaches the length of the input. -/
theorem unquote_fuel : ∀ (n m : Nat) (body : Bytes),
    body.length ≤ n → body.length ≤ m → unquote n body = unquote m body := by
  intro n
  induction n with
  | zero =>
    intro m body hn hm
    have : body = [] := List.eq_nil_of_length_eq_zero (by omega)
    subst this
    cases m <;> rfl
  | succ n ih =>
    intro m body hn hm
    cases body with
    | nil => cases m <;> rfl
    | cons c rest =>
      cases m with
      | zero => simp at hm
      | succ m =>
        simp only [List.length_cons] at hn hm
        simp only [unquote]
        split
        · cases rest with
          | nil => rfl
          | cons e rest1 =>
            simp only [List.length_cons] at hn hm
            dsimp only
            split
            · cases rest1 with
              | nil => rfl
              | cons h1 t1 =>
                cases t1 with
                | nil => rfl
                | cons h2 t2 =>
                  cases t2 with
                  | nil => rfl
                  | cons h3 t3 =>
                    cases t3 with
                    | nil => rfl
                    | cons h4 rest2 =>
                      simp only [List.length_cons] at hn hm
                      have e1 := ih m rest2 (by omega) (by omega)
                      have e2 := ih m (rest2.drop 6)
                        (by rw [List.length_drop]; omega) (by rw [List.length_drop]; omega)
                      dsimp only
                      rw [e1, e2]
            · rw [ih m rest1 (by omega) (by omega)]
        · split
          · rw [ih m rest (by omega) (by omega)]
          · split
            · rw [ih m rest (by omega) (by omega)]
            · rename_i k _
              rw [ih m (rest.drop k) (by rw [List.length_drop]; omega)
                (by rw [List.length_drop]; omega)]

/-- What `skipSpace` leaves is no longer than its input. -/
theorem skipSpace_length (i : Bytes) : (skipSpace i).length ≤ i.length := by
  obtain ⟨p, hp⟩ := skipSpace_suffix i
  have := congrArg List.length hp
  simp only [List.length_append] at this
  omega

/-- The fuel of `parseElems` is enough once it reaches the length of the
input, when the value reader leaves no more than it is given. -/
theorem parseElems_fuel (pv : Bytes → Option (JValue × Bytes))
    (hpv : ∀ i v r, pv i = some (v, r) → r.length < i.length) :
    ∀ (n m : Nat) (i : Bytes), i.length ≤ n → i.length ≤ m →
      parseElems pv n i = parseElems pv m i := by
  intro n
  induction n with
  | zero =>
    intro m i hn hm
    have : i = [] := List.eq_nil_of_length_eq_zero (by omega)
    subst this
    cases m with
    | zero => rfl
    | succ m =>
      simp only [parseElems, skipSpace]
      cases h : pv [] with
      | none => rfl
      | some vr => obtain ⟨v, r⟩ := vr; have := hpv _ _ _ h; simp at this
  | succ n ih =>
    intro m i hn hm
    cases m with
    | zero =>
      have : i = [] := List.eq_nil_of_length_eq_zero (by omega)
      subst this
      simp only [parseElems, skipSpace]
      cases h : pv [] with
      | none => rfl
      | some vr => obtain ⟨v, r⟩ := vr; have := hpv _ _ _ h; simp at this
    | succ m =>
      simp only [parseElems]
      cases h : pv (skipSpace i) with
      | none => rfl
      | some vr =>
        obtain ⟨v, rest⟩ := vr
        dsimp only
        have h1 := hpv _ _ _ h
        have h2 := skipSpace_length i
        have h3 := skipSpace_length rest
        cases hs : skipSpace rest with
        | nil => rfl
        | cons c rest1 =>
          rw [hs] at h3
          simp only [List.length_cons] at h3
          dsimp only
          split
          · rw [ih m rest1 (by omega) (by omega)]
          · rfl

/-- What `parseString` leaves is shorter than its input. -/
theorem parseString_length (body key rest : Bytes) (h : parseString body = some (key, rest)) :
    rest.length ≤ body.length := by
  obtain ⟨p, hp⟩ := parseString_suffix body key rest h
  have := congrArg List.length hp
  simp only [List.length_append] at this
  omega

/-- The fuel of `parseMembers` is enough once it reaches the length of the
input, when the value reader leaves no more than it is given. -/
theorem parseMembers_fuel (pv : Bytes → Option (JValue × Bytes))
    (hpv : ∀ i v r, pv i = some (v, r) → r.length < i.length) :
    ∀ (n m : Nat) (i : Bytes), i.length ≤ n → i.length ≤ m →
      parseMembers pv n i = parseMembers pv m i := by
  intro n
  induction n with
  | zero =>
    intro m i hn hm
    have : i = [] := List.eq_nil_of_length_eq_zero (by omega)
    subst this
    cases m with
    | zero => rfl
    | succ m => simp [parseMembers, skipSpace]
  | succ n ih =>
    intro m i hn hm
    cases m with
    | zero =>
      have : i = [] := List.eq_nil_of_length_eq_zero (by omega)
      subst this
      simp [parseMembers, skipSpace]
    | succ m =>
      simp only [parseMembers]
      have h0 := skipSpace_length i
      cases hq : skipSpace i with
      | nil => rfl
      | cons q body =>
        rw [hq] at h0
        simp only [List.length_cons] at h0
        dsimp only
        split
        · cases hk : parseString body with
          | none => rfl
          | some kr =>
            obtain ⟨key, rest⟩ := kr
            dsimp only
            have h1 := parseString_length _ _ _ hk
            have h2 := skipSpace_length rest
            cases hc : skipSpace rest with
            | nil => rfl
            | cons c rest1 =>
              rw [hc] at h2
              simp only [List.length_cons] at h2
              dsimp only
              split
              · have h3 := skipSpace_length rest1
                cases hv : pv (skipSpace rest1) with
                | none => rfl
                | some vr =>
                  obtain ⟨v, rest2⟩ := vr
                  dsimp only
                  have h4 := hpv _ _ _ hv
                  have h5 := skipSpace_length rest2
                  cases hd : skipSpace rest2 with
                  | nil => rfl
                  | cons d rest3 =>
                    rw [hd] at h5
                    simp only [List.length_cons] at h5
                    dsimp only
                    split
                    · rw [ih m rest3 (by omega) (by omega)]
                    · rfl
              · rfl
        · rfl

/-- What is read of `c :: rest` when an end of `rest` is left is not empty. -/
theorem consumed_cons_ne (c : Nat) (rest r p : Bytes) (h : rest = p ++ r) :
    consumed (c :: rest) r ≠ [] := by
  subst h
  have : c :: (p ++ r) = (c :: p) ++ r := rfl
  rw [this, consumed_append]
  exact List.cons_ne_nil _ _

/-- A number takes at least its first byte. -/
theorem scanNumber_cons (c : Nat) (cs r : Bytes) (h : scanNumber (c :: cs) = some r) :
    ∃ p, cs = p ++ r := by
  simp only [scanNumber] at h
  split at h
  · exact scanInt_suffix _ _ h
  · simp only [scanInt] at h
    split at h
    · exact scanFrac_suffix _ _ h
    · split at h
      · obtain ⟨p, hp⟩ := skipDigits_suffix cs
        obtain ⟨q, hq⟩ := scanFrac_suffix _ _ h
        exact ⟨p ++ q, by rw [List.append_assoc, ← hq, ← hp]⟩
      · cases h

/-- The text of a value read is not empty. -/
theorem parseValue_raw_ne (d : Nat) (i : Bytes) (v : JValue) (r : Bytes)
    (h : parseValue d i = some (v, r)) : v.raw ≠ [] := by
  cases i with
  | nil => simp [parseValue] at h
  | cons c rest =>
    have scalars : ∀ (h : (if c = 116 then
          match expect [114, 117, 101] rest with
          | none => none
          | some r => some (JValue.bool true, r)
        else if c = 102 then
          match expect [97, 108, 115, 101] rest with
          | none => none
          | some r => some (JValue.bool false, r)
        else if c = 110 then
          match expect [117, 108, 108] rest with
          | none => none
          | some r => some (JValue.null, r)
        else
          match scanNumber (c :: rest) with
          | none => none
          | some r => some (JValue.number (consumed (c :: rest) r), r)) = some (v, r)),
        v.raw ≠ [] := by
      intro h
      split at h
      · split at h
        · cases h
        · cases h; simp [JValue.raw]
      · split at h
        · split at h
          · cases h
          · cases h; simp [JValue.raw]
        · split at h
          · split at h
            · cases h
            · cases h; simp [JValue.raw]
          · split at h
            · cases h
            · rename_i r1 hn
              cases h
              obtain ⟨p, hp⟩ := scanNumber_cons _ _ _ hn
              exact consumed_cons_ne _ _ _ _ hp
    cases d with
    | zero =>
      simp only [parseValue] at h
      split at h
      · split at h
        · cases h
        · rename_i body r1 hb
          cases h
          obtain ⟨p, hp⟩ := parseString_suffix _ _ _ hb
          exact consumed_cons_ne _ _ _ _ hp
      · split at h
        · cases h
        · split at h
          · cases h
          · exact scalars h
    | succ d =>
      simp only [parseValue] at h
      split at h
      · split at h
        · cases h
        · rename_i body r1 hb
          cases h
          obtain ⟨p, hp⟩ := parseString_suffix _ _ _ hb
          exact consumed_cons_ne _ _ _ _ hp
      · obtain ⟨w, hw⟩ := skipSpace_suffix rest
        split at h
        · split at h
          · rename_i r1 hs
            cases h
            rw [hs] at hw
            exact consumed_cons_ne _ _ _ (w ++ [125]) (by rw [hw]; simp)
          · split at h
            · cases h
            · rename_i ms r1 hm
              cases h
              obtain ⟨p, hp, -⟩ := parseMembers_within (parseValue d) (parseValue_reads d)
                _ _ _ _ hm
              exact consumed_cons_ne _ _ _ (w ++ p) (by rw [hw, hp, List.append_assoc])
        · split at h
          · split at h
            · rename_i r1 hs
              cases h
              rw [hs] at hw
              exact consumed_cons_ne _ _ _ (w ++ [93]) (by rw [hw]; simp)
            · split at h
              · cases h
              · rename_i vs r1 hm
                cases h
                obtain ⟨p, hp⟩ := parseElems_suffix (parseValue d)
                  (fun i v r hv => ⟨v.raw, (parseValue_reads d i v r hv).1⟩) _ _ _ _ hm
                exact consumed_cons_ne _ _ _ (w ++ p) (by rw [hw, hp, List.append_assoc])
          · exact scalars h

/-- A value read by `parseValue` takes at least one byte. -/
theorem parseValue_length (d : Nat) (i : Bytes) (v : JValue) (r : Bytes)
    (h : parseValue d i = some (v, r)) : r.length < i.length := by
  have hr := (parseValue_reads d i v r h).1
  have hne := parseValue_raw_ne d i v r h
  have h1 := congrArg List.length hr
  simp only [List.length_append] at h1
  have : 0 < v.raw.length := List.length_pos.mpr hne
  omega

/-- The fuel that `parseValue` gives to the member loop is enough. -/
theorem parseMembers_fuel_parseValue (d n : Nat) (i : Bytes) (hn : i.length ≤ n) :
    parseMembers (parseValue d) n i = parseMembers (parseValue d) i.length i :=
  parseMembers_fuel (parseValue d) (parseValue_length d) n i.length i hn (Nat.le_refl _)

/-- The fuel that `parseValue` gives to the element loop is enough. -/
theorem parseElems_fuel_parseValue (d n : Nat) (i : Bytes) (hn : i.length ≤ n) :
    parseElems (parseValue d) n i = parseElems (parseValue d) i.length i :=
  parseElems_fuel (parseValue d) (parseValue_length d) n i.length i hn (Nat.le_refl _)

/-! ## The store: which member reaches which field -/

/-- The names of the fields declared in the file are `ownNames`. -/
theorem ownFields_names {E S L : Type} (x : Common E S) (lk : LinkDecl L) :
    (ownFields x lk).map (fun f => f.name) = ownNames := rfl

/-- A mapped result that is a success comes from a success. -/
theorem Except.map_eq_ok {ε α β : Type} {f : α → β} {e : Except ε α} {b : β}
    (h : e.map f = .ok b) : ∃ a, e = .ok a ∧ f a = b := by
  cases e with
  | error err => simp [Except.map] at h
  | ok a => exact ⟨a, rfl, by simpa [Except.map] using h⟩

/-- The selected field is one of the fields, and its name equals the member name
under case folding. -/
theorem findField_mem {σ : Type} {fields : List (Field σ)} {k : Bytes} {f : Field σ}
    (h : findField fields k = some f) : f ∈ fields ∧ foldName f.name = foldName k := by
  unfold findField at h
  split at h
  · rename_i g hg
    cases h
    have hp := List.find?_some hg
    simp at hp
    exact ⟨List.mem_of_find?_eq_some hg, by rw [hp]⟩
  · have hp := List.find?_some h
    simp at hp
    exact ⟨List.mem_of_find?_eq_some h, hp⟩

/-- A member of another name is not among the named ones. -/
theorem named_cons_of_ne {n k : Bytes} {v : JValue} {ms : List (Bytes × JValue)}
    (h : foldName k ≠ foldName n) : named n ((k, v) :: ms) = named n ms := by
  simp [named, List.filter_cons, h]

/-- A member of that name, up to letter case, is among the named ones. -/
theorem named_cons_of_eq {n k : Bytes} {v : JValue} {ms : List (Bytes × JValue)}
    (h : foldName k = foldName n) : named n ((k, v) :: ms) = (k, v) :: named n ms := by
  simp [named, List.filter_cons, h]

/-- Members none of which carries the name `n` up to letter case leave alone
what only the field `n` writes. -/
theorem storeMembers_frame {σ α : Type} (fields : List (Field σ)) (π : σ → α) (n : Bytes)
    (hframe : ∀ f ∈ fields, foldName f.name ≠ foldName n →
      ∀ v s s1, f.store v s = .ok s1 → π s1 = π s) :
    ∀ ms s s1, named n ms = [] → storeMembers fields ms s = .ok s1 → π s1 = π s := by
  intro ms
  induction ms with
  | nil => intro s s1 _ h; simp [storeMembers] at h; rw [h]
  | cons m ms ih =>
    intro s s1 hn h
    obtain ⟨k, v⟩ := m
    have hk : foldName k ≠ foldName n := by
      intro heq
      rw [named_cons_of_eq heq] at hn
      exact List.cons_ne_nil _ _ hn
    rw [named_cons_of_ne hk] at hn
    simp only [storeMembers] at h
    split at h
    · exact ih s s1 hn h
    · rename_i f hf
      split at h
      · cases h
      · rename_i s2 hs
        have hm := findField_mem hf
        have h2 := hframe f hm.1 (by rw [hm.2]; exact hk) v s s2 hs
        rw [ih s2 s1 hn h, h2]

/-- Storing the members of an object in which `n` is plain stores, into the part
that the field `n` writes, exactly the member `n` if there is one. -/
theorem storeMembers_member {σ α : Type} (fields : List (Field σ)) (π : σ → α) (n : Bytes)
    (g : Field σ) (st : JValue → α → Except DecodeError α)
    (hfind : findField fields n = some g)
    (hg : ∀ v s s1, g.store v s = .ok s1 → st v (π s) = .ok (π s1))
    (hframe : ∀ f ∈ fields, foldName f.name ≠ foldName n →
      ∀ v s s1, f.store v s = .ok s1 → π s1 = π s) :
    ∀ ms s s1 raw, plainIn n (some (.object raw ms)) = true →
      storeMembers fields ms s = .ok s1 →
      storeOpt st (child (some (.object raw ms)) n) (π s) = .ok (π s1) := by
  intro ms
  induction ms with
  | nil =>
    intro s s1 raw _ h
    simp [storeMembers] at h
    simp [child, JValue.member?, storeOpt, h]
  | cons m ms ih =>
    intro s s1 raw hp h
    obtain ⟨k, v⟩ := m
    by_cases hk : foldName k = foldName n
    · -- the member is the one named `n`
      simp only [plainIn, named_cons_of_eq hk, List.length_cons, List.all_cons,
        Bool.and_eq_true, decide_eq_true_eq, beq_iff_eq] at hp
      obtain ⟨hlen, hkn, -⟩ := hp
      have hrest : named n ms = [] := by
        apply List.eq_nil_of_length_eq_zero; omega
      subst hkn
      simp only [storeMembers, hfind] at h
      split at h
      · cases h
      · rename_i s2 hs
        have h1 := hg v s s2 hs
        have h2 := storeMembers_frame fields π k hframe ms s2 s1 hrest h
        simp [child, JValue.member?, storeOpt, h2, h1]
    · have hkn : k ≠ n := fun e => hk (by rw [e])
      have hp1 : plainIn n (some (.object raw ms)) = true := by
        simpa [plainIn, named_cons_of_ne hk] using hp
      have hch : child (some (.object raw ((k, v) :: ms))) n = child (some (.object raw ms)) n := by
        simp [child, JValue.member?, List.find?_cons, hkn]
      rw [hch]
      simp only [storeMembers] at h
      split at h
      · exact ih s s1 raw hp1 h
      · rename_i f hf
        split at h
        · cases h
        · rename_i s2 hs
          have hm := findField_mem hf
          have h2 := hframe f hm.1 (by rw [hm.2]; exact hk) v s s2 hs
          rw [← h2]
          exact ih s2 s1 raw hp1 h

/-- The same for an optional value stored into a struct. -/
theorem storeOpt_child {σ α : Type} (fields : List (Field σ)) (π : σ → α) (n : Bytes)
    (g : Field σ) (st : JValue → α → Except DecodeError α)
    (hfind : findField fields n = some g)
    (hg : ∀ v s s1, g.store v s = .ok s1 → st v (π s) = .ok (π s1))
    (hframe : ∀ f ∈ fields, foldName f.name ≠ foldName n →
      ∀ v s s1, f.store v s = .ok s1 → π s1 = π s)
    (o : Option JValue) (s s1 : σ) (hp : plainIn n o = true)
    (h : storeOpt (storeStruct fields) o s = .ok s1) :
    storeOpt st (child o n) (π s) = .ok (π s1) := by
  cases o with
  | none =>
    simp [storeOpt] at h
    simp [child, storeOpt, h]
  | some w =>
    cases w with
    | object raw ms =>
      exact storeMembers_member fields π n g st hfind hg hframe ms s s1 raw hp
        (by simpa [storeOpt, storeStruct] using h)
    | null =>
      simp [storeOpt, storeStruct] at h
      simp [child, JValue.member?, storeOpt, h]
    | bool b => simp [storeOpt, storeStruct] at h
    | number r => simp [storeOpt, storeStruct] at h
    | string r t => simp [storeOpt, storeStruct] at h
    | array r es => simp [storeOpt, storeStruct] at h

/-- The promoted fields of the embedded entity that are visible in `t`. -/
theorem entityPart_name {E S L : Type} (x : Common E S) (f : Field (T E S L))
    (hf : f ∈ (x.entityFields.filter (fun f => !ownNames.contains f.name)).map
      (fun f => onTemp (S := S) (L := L) (onEntity f))) :
    f.name ∉ ownNames ∧ ∀ v s s1, f.store v s = .ok s1 →
      ∃ e, s1 = { s with temp := { s.temp with Entity := e } } := by
  simp only [List.mem_map, List.mem_filter] at hf
  obtain ⟨f1, ⟨-, hn⟩, rfl⟩ := hf
  refine ⟨by simpa using hn, ?_⟩
  intro v s s1 h
  simp only [onTemp, onEntity] at h
  obtain ⟨u, hu, rfl⟩ := Except.map_eq_ok h
  obtain ⟨e, -, rfl⟩ := Except.map_eq_ok hu
  exact ⟨e, rfl⟩

/-- A name of a field declared in the file selects that field. -/
theorem findField_tFields {E S L : Type} (x : Common E S) (lk : LinkDecl L)
    (n : Bytes) (g : Field (T E S L))
    (hn : n ∈ ownNames) (hg : (ownFields x lk).find? (fun f => f.name == n) = some g) :
    findField (tFields x lk) n = some g := by
  have hnone : ((x.entityFields.filter (fun f => !ownNames.contains f.name)).map
      (fun f => onTemp (S := S) (L := L) (onEntity f))).find? (fun f => f.name == n) = none := by
    rw [List.find?_eq_none]
    intro f hf
    have := (entityPart_name x f hf).1
    simp only [beq_iff_eq]
    intro e
    exact this (e ▸ hn)
  simp only [findField, tFields, List.find?_append, hnone, Option.none_or, hg]

/-- A field of `t` is a promoted field of the entity, a field of `temp`, or a
field of `t` itself. -/
theorem tFields_cases {E S L : Type} (x : Common E S) (lk : LinkDecl L)
    (f : Field (T E S L)) (hf : f ∈ tFields x lk) :
    (∀ v s s1, f.store v s = .ok s1 → ∃ e, s1 = { s with temp := { s.temp with Entity := e } })
    ∨ (∃ g ∈ tempFields x, f = onTemp g) ∨ f ∈ outerFields lk := by
  simp only [tFields, ownFields, List.mem_append] at hf
  rcases hf with hf | hf | hf
  · exact Or.inl (entityPart_name x f hf).2
  · simp only [List.mem_map] at hf
    obtain ⟨g, hg, rfl⟩ := hf
    exact Or.inr (Or.inl ⟨g, hg, rfl⟩)
  · exact Or.inr (Or.inr hf)

/-- A field of `temp` writes `temp` only. -/
theorem onTemp_store {E S : Type} (g : Field (UpdateService E S)) (v : JValue) (s s1 : T E S L)
    (h : (onTemp g).store v s = .ok s1) :
    ∃ u, g.store v s.temp = .ok u ∧ s1 = { s with temp := u } := by
  simp only [onTemp] at h
  obtain ⟨u, hu, rfl⟩ := Except.map_eq_ok h
  exact ⟨u, hu, rfl⟩

/-- Every field of `t` other than `Actions` leaves `t.Actions` alone. -/
theorem frame_Actions {E S L : Type} (x : Common E S) (lk : LinkDecl L) :
    ∀ f ∈ tFields x lk, foldName f.name ≠ foldName nActions →
      ∀ v s s1, f.store v s = .ok s1 → s1.Actions = s.Actions := by
  intro f hf hne v s s1 h
  rcases tFields_cases x lk f hf with he | ⟨g, -, rfl⟩ | ho
  · obtain ⟨e, rfl⟩ := he v s s1 h; rfl
  · obtain ⟨u, -, rfl⟩ := onTemp_store g v s s1 h; rfl
  · simp only [outerFields, List.mem_cons, List.mem_singleton, List.not_mem_nil, or_false] at ho
    rcases ho with rfl | rfl | rfl
    · exact absurd rfl hne
    · dsimp only at h; obtain ⟨a, -, rfl⟩ := Except.map_eq_ok h; rfl
    · dsimp only at h; obtain ⟨a, -, rfl⟩ := Except.map_eq_ok h; rfl

/-- Every field of `t` other than `FirmwareInventory` leaves that link alone. -/
theorem frame_FirmwareInventory {E S L : Type} (x : Common E S) (lk : LinkDecl L) :
    ∀ f ∈ tFields x lk, foldName f.name ≠ foldName nFirmwareInventory →
      ∀ v s s1, f.store v s = .ok s1 → s1.FirmwareInventory = s.FirmwareInventory := by
  intro f hf hne v s s1 h
  rcases tFields_cases x lk f hf with he | ⟨g, -, rfl⟩ | ho
  · obtain ⟨e, rfl⟩ := he v s s1 h; rfl
  · obtain ⟨u, -, rfl⟩ := onTemp_store g v s s1 h; rfl
  · simp only [outerFields, List.mem_cons, List.mem_singleton, List.not_mem_nil, or_false] at ho
    rcases ho with rfl | rfl | rfl
    · dsimp only at h; obtain ⟨a, -, rfl⟩ := Except.map_eq_ok h; rfl
    · exact absurd rfl hne
    · dsimp only at h; obtain ⟨a, -, rfl⟩ := Except.map_eq_ok h; rfl

/-- Every field of `t` other than `SoftwareInventory` leaves that link alone. -/
theorem frame_SoftwareInventory {E S L : Type} (x : Common E S) (lk : LinkDecl L) :
    ∀ f ∈ tFields x lk, foldName f.name ≠ foldName nSoftwareInventory →
      ∀ v s s1, f.store v s = .ok s1 → s1.SoftwareInventory = s.SoftwareInventory := by
  intro f hf hne v s s1 h
  rcases tFields_cases x lk f hf with he | ⟨g, -, rfl⟩ | ho
  · obtain ⟨e, rfl⟩ := he v s s1 h; rfl
  · obtain ⟨u, -, rfl⟩ := onTemp_store g v s s1 h; rfl
  · simp only [outerFields, List.mem_cons, List.mem_singleton, List.not_mem_nil, or_false] at ho
    rcases ho with rfl | rfl | rfl
    · dsimp only at h; obtain ⟨a, -, rfl⟩ := Except.map_eq_ok h; rfl
    · dsimp only at h; obtain ⟨a, -, rfl⟩ := Except.map_eq_ok h; rfl
    · exact absurd rfl hne

/-- Every field of `t` other than `Oem` leaves `t.temp.Oem` alone. -/
theorem frame_Oem {E S L : Type} (x : Common E S) (lk : LinkDecl L) :
    ∀ f ∈ tFields x lk, foldName f.name ≠ foldName nOem →
      ∀ v s s1, f.store v s = .ok s1 → s1.temp.Oem = s.temp.Oem := by
  intro f hf hne v s s1 h
  rcases tFields_cases x lk f hf with he | ⟨g, hg, rfl⟩ | ho
  · obtain ⟨e, rfl⟩ := he v s s1 h; rfl
  · obtain ⟨u, hu, rfl⟩ := onTemp_store g v s s1 h
    simp only [tempFields, List.mem_cons, List.mem_singleton, List.not_mem_nil, or_false] at hg
    rcases hg with rfl | rfl | rfl | rfl | rfl | rfl | rfl | rfl | rfl | rfl | rfl | rfl
    all_goals first
      | exact absurd rfl hne
      | (dsimp only at hu; obtain ⟨a, -, rfl⟩ := Except.map_eq_ok hu; rfl)
  · simp only [outerFields, List.mem_cons, List.mem_singleton, List.not_mem_nil, or_false] at ho
    rcases ho with rfl | rfl | rfl
    all_goals (dsimp only at h; obtain ⟨a, -, rfl⟩ := Except.map_eq_ok h; rfl)

/-- Every field of `actions` other than the simple-update action leaves it alone. -/
theorem frame_actions_SimpleUpdate :
    ∀ f ∈ actionsFields, foldName f.name ≠ foldName nSimpleUpdate →
      ∀ v s s1, f.store v s = .ok s1 → s1.SimpleUpdate = s.SimpleUpdate := by
  intro f hf hne v s s1 h
  simp only [actionsFields, List.mem_cons, List.mem_singleton, List.not_mem_nil, or_false] at hf
  rcases hf with rfl | rfl | rfl
  all_goals first
    | exact absurd rfl hne
    | (dsimp only at h; obtain ⟨a, -, rfl⟩ := Except.map_eq_ok h; rfl)

/-- Every field of `actions` other than the start-update action leaves it alone. -/
theorem frame_actions_StartUpdate :
    ∀ f ∈ actionsFields, foldName f.name ≠ foldName nStartUpdate →
      ∀ v s s1, f.store v s = .ok s1 → s1.StartUpdate = s.StartUpdate := by
  intro f hf hne v s s1 h
  simp only [actionsFields, List.mem_cons, List.mem_singleton, List.not_mem_nil, or_false] at hf
  rcases hf with rfl | rfl | rfl
  all_goals first
    | exact absurd rfl hne
    | (dsimp only at h; obtain ⟨a, -, rfl⟩ := Except.map_eq_ok h; rfl)

/-- Every field of `actions` other than `Oem` leaves it alone. -/
theorem frame_actions_Oem :
    ∀ f ∈ actionsFields, foldName f.name ≠ foldName nOem →
      ∀ v s s1, f.store v s = .ok s1 → s1.Oem = s.Oem := by
  intro f hf hne v s s1 h
  simp only [actionsFields, List.mem_cons, List.mem_singleton, List.not_mem_nil, or_false] at hf
  rcases hf with rfl | rfl | rfl
  all_goals first
    | exact absurd rfl hne
    | (dsimp only at h; obtain ⟨a, -, rfl⟩ := Except.map_eq_ok h; rfl)

/-- The allowable values leave the target of the simple-update action alone. -/
theorem frame_simple_Target :
    ∀ f ∈ simpleUpdateFields, foldName f.name ≠ foldName nTarget →
      ∀ v s s1, f.store v s = .ok s1 → s1.Target = s.Target := by
  intro f hf hne v s s1 h
  simp only [simpleUpdateFields, List.mem_cons, List.mem_singleton, List.not_mem_nil,
    or_false] at hf
  rcases hf with rfl | rfl
  all_goals first
    | exact absurd rfl hne
    | (dsimp only at h; obtain ⟨a, -, rfl⟩ := Except.map_eq_ok h; rfl)

/-- The target leaves the allowable values of the simple-update action alone. -/
theorem frame_simple_Allowable :
    ∀ f ∈ simpleUpdateFields, foldName f.name ≠ foldName nAllowable →
      ∀ v s s1, f.store v s = .ok s1 → s1.AllowableValues = s.AllowableValues := by
  intro f hf hne v s s1 h
  simp only [simpleUpdateFields, List.mem_cons, List.mem_singleton, List.not_mem_nil,
    or_false] at hf
  rcases hf with rfl | rfl
  all_goals first
    | exact absurd rfl hne
    | (dsimp only at h; obtain ⟨a, -, rfl⟩ := Except.map_eq_ok h; rfl)

/-- The start-update action has the one field. -/
theorem frame_start_Target :
    ∀ f ∈ startUpdateFields, foldName f.name ≠ foldName nTarget →
      ∀ v s s1, f.store v s = .ok s1 → s1.Target = s.Target := by
  intro f hf hne v s s1 h
  simp only [startUpdateFields, List.mem_cons, List.mem_singleton, List.not_mem_nil, or_false] at hf
  rcases hf with rfl
  exact absurd rfl hne

/-- A string stored into the empty string is the text of the member. -/
theorem storeOpt_string {o : Option JValue} {a : Bytes}
    (h : storeOpt storeString o [] = .ok a) : a = textOf o := by
  cases o with
  | none => simp [storeOpt] at h; simp [textOf, h]
  | some v => cases v <;> simp [storeOpt, storeString] at h <;> simp [textOf, h]

/-- Elements stored into a fresh backing array are the texts of the elements. -/
theorem storeElems_nil : ∀ (es : List JValue) (xs : List Bytes),
    storeElems es [] = .ok xs → xs = es.map (fun e => textOf (some e)) := by
  intro es
  induction es with
  | nil => intro xs h; simp [storeElems] at h; simp [h]
  | cons e es ih =>
    intro xs h
    simp only [storeElems, List.headD_nil, List.tail_nil] at h
    split at h
    · cases h
    · rename_i s hs
      split at h
      · cases h
      · rename_i rest hr
        cases h
        have := ih rest hr
        have hs1 := storeOpt_string (o := some e) (a := s) (by simpa [storeOpt] using hs)
        simp [this, hs1]

/-- An array stored into the nil slice has the texts of the member as elements. -/
theorem storeOpt_strings {o : Option JValue} {a : StringSlice}
    (h : storeOpt storeStrings o StringSlice.zero = .ok a) : a.elems = textsOf o := by
  cases o with
  | none => simp [storeOpt] at h; simp [textsOf, ← h, StringSlice.zero]
  | some v =>
    cases v with
    | array r es =>
      cases es with
      | nil => simp [storeOpt, storeStrings] at h; simp [textsOf, ← h, StringSlice.zero]
      | cons e es =>
        simp only [storeOpt, storeStrings, StringSlice.zero, List.append_nil] at h
        split at h
        · cases h
        · rename_i xs hx
          cases h
          simpa [textsOf] using storeElems_nil _ _ hx
    | null => simp [storeOpt, storeStrings] at h; simp [textsOf, ← h, StringSlice.zero]
    | bool b => simp [storeOpt, storeStrings] at h
    | number r => simp [storeOpt, storeStrings] at h
    | string r t => simp [storeOpt, storeStrings] at h
    | object r ms => simp [storeOpt, storeStrings] at h

/-- A raw message stored is the input text of the member. -/
theorem storeOpt_raw {o : Option JValue} {a : Bytes}
    (h : storeOpt storeRaw o [] = .ok a) : a = rawOf o := by
  cases o with
  | none => simp [storeOpt] at h; simp [rawOf, h]
  | some v => simp [storeOpt, storeRaw] at h; simp [rawOf, h]

/-- A link stored is the URI of the member. -/
theorem storeOpt_link {o : Option JValue} {a : Bytes}
    (h : storeOpt (fun v _ => Link.decode v) o [] = .ok a) : a = uriOf o := by
  cases o with
  | none => simp [storeOpt] at h; simp [uriOf, h]
  | some v =>
    cases v with
    | string r s => simp [storeOpt, Link.decode] at h; simp [uriOf, h]
    | object r ms =>
      simp only [storeOpt, Link.decode] at h
      split at h
      · rename_i r1 u hm
        cases h
        simp [uriOf, hm, textOf]
      · cases h
    | null => simp [storeOpt, Link.decode] at h
    | bool b => simp [storeOpt, Link.decode] at h
    | number r => simp [storeOpt, Link.decode] at h
    | array r es => simp [storeOpt, Link.decode] at h

/-- A successful `UnmarshalJSON` is a successful `json.Unmarshal` into `t`
followed by the projection of lines 82-89. -/
theorem UnmarshalJSON_ok {E S L : Type} (x : Common E S) (lk : LinkDecl L)
    (us0 : UpdateService E S) (b : Bytes)
    (hok : (UnmarshalJSON x lk us0 b).2 = none) :
    ∃ t, storeOpt (storeStruct (tFields x lk)) (parse b) (T.zero x lk) = .ok t ∧
      unmarshalT x lk b = .ok t ∧
      (UnmarshalJSON x lk us0 b).1 =
        { t.temp with
          FirmwareInventory := lk.String t.FirmwareInventory
          SoftwareInventory := lk.String t.SoftwareInventory
          TransferProtocol := t.Actions.SimpleUpdate.AllowableValues
          UpdateServiceTarget := t.Actions.SimpleUpdate.Target
          StartUpdateTarget := t.Actions.StartUpdate.Target
          OemActions := t.Actions.Oem
          rawData := b } := by
  unfold UnmarshalJSON at hok ⊢
  cases hu : unmarshalT x lk b with
  | error e => rw [hu] at hok; simp at hok
  | ok t =>
    refine ⟨t, ?_, rfl, rfl⟩
    unfold unmarshalT at hu
    cases hp : parse b with
    | none => rw [hp] at hu; simp at hu
    | some v => rw [hp] at hu; simpa [storeOpt] using hu

/-- What `t.Actions` holds after the decode is the top-level member `Actions`,
stored into the zero value. -/
theorem actions_of_payload {E S L : Type} (x : Common E S) (lk : LinkDecl L)
    (b : Bytes) (t : T E S L)
    (hp : plainIn nActions (parse b) = true)
    (h : storeOpt (storeStruct (tFields x lk)) (parse b) (T.zero x lk) = .ok t) :
    storeOpt (storeStruct actionsFields) (child (parse b) nActions) actions.zero = .ok t.Actions :=
  storeOpt_child (tFields x lk) (fun t => t.Actions) nActions _ (storeStruct actionsFields)
    (findField_tFields x lk nActions _ (by decide) rfl)
    (fun v s s1 hs => by
      dsimp only at hs
      obtain ⟨a, ha, rfl⟩ := Except.map_eq_ok hs
      exact ha)
    (frame_Actions x lk) (parse b) (T.zero x lk) t hp h

/-- What the simple-update action holds is the member of its name. -/
theorem simpleUpdate_of_actions (o : Option JValue) (a a1 : actions)
    (hp : plainIn nSimpleUpdate o = true)
    (h : storeOpt (storeStruct actionsFields) o a = .ok a1) :
    storeOpt (storeStruct simpleUpdateFields) (child o nSimpleUpdate) a.SimpleUpdate
      = .ok a1.SimpleUpdate :=
  storeOpt_child actionsFields (fun s => s.SimpleUpdate) nSimpleUpdate _
    (storeStruct simpleUpdateFields) rfl
    (fun v s s1 hs => by
      dsimp only at hs
      obtain ⟨c, hc, rfl⟩ := Except.map_eq_ok hs
      exact hc)
    frame_actions_SimpleUpdate o a a1 hp h

/-- What the start-update action holds is the member of its name. -/
theorem startUpdate_of_actions (o : Option JValue) (a a1 : actions)
    (hp : plainIn nStartUpdate o = true)
    (h : storeOpt (storeStruct actionsFields) o a = .ok a1) :
    storeOpt (storeStruct startUpdateFields) (child o nStartUpdate) a.StartUpdate
      = .ok a1.StartUpdate :=
  storeOpt_child actionsFields (fun s => s.StartUpdate) nStartUpdate _
    (storeStruct startUpdateFields) rfl
    (fun v s s1 hs => by
      dsimp only at hs
      obtain ⟨c, hc, rfl⟩ := Except.map_eq_ok hs
      exact hc)
    frame_actions_StartUpdate o a a1 hp h

/-- What `Actions.Oem` holds is the member `Oem` of `Actions`. -/
theorem oem_of_actions (o : Option JValue) (a a1 : actions)
    (hp : plainIn nOem o = true)
    (h : storeOpt (storeStruct actionsFields) o a = .ok a1) :
    storeOpt storeRaw (child o nOem) a.Oem = .ok a1.Oem :=
  storeOpt_child actionsFields (fun s => s.Oem) nOem _ storeRaw rfl
    (fun v s s1 hs => by
      dsimp only at hs
      obtain ⟨c, hc, rfl⟩ := Except.map_eq_ok hs
      exact hc)
    frame_actions_Oem o a a1 hp h

/-- The target of the simple-update action is its member `Target`. -/
theorem target_of_simpleUpdate (o : Option JValue) (a a1 : SimpleUpdate)
    (hp : plainIn nTarget o = true)
    (h : storeOpt (storeStruct simpleUpdateFields) o a = .ok a1) :
    storeOpt storeString (child o nTarget) a.Target = .ok a1.Target :=
  storeOpt_child simpleUpdateFields (fun s => s.Target) nTarget _ storeString rfl
    (fun v s s1 hs => by
      dsimp only at hs
      obtain ⟨c, hc, rfl⟩ := Except.map_eq_ok hs
      exact hc)
    frame_simple_Target o a a1 hp h

/-- The allowable values of the simple-update action are its member of that name. -/
theorem allowable_of_simpleUpdate (o : Option JValue) (a a1 : SimpleUpdate)
    (hp : plainIn nAllowable o = true)
    (h : storeOpt (storeStruct simpleUpdateFields) o a = .ok a1) :
    storeOpt storeStrings (child o nAllowable) a.AllowableValues = .ok a1.AllowableValues :=
  storeOpt_child simpleUpdateFields (fun s => s.AllowableValues) nAllowable _ storeStrings rfl
    (fun v s s1 hs => by
      dsimp only at hs
      obtain ⟨c, hc, rfl⟩ := Except.map_eq_ok hs
      exact hc)
    frame_simple_Allowable o a a1 hp h

/-- The target of the start-update action is its member `Target`. -/
theorem target_of_startUpdate (o : Option JValue) (a a1 : StartUpdate)
    (hp : plainIn nTarget o = true)
    (h : storeOpt (storeStruct startUpdateFields) o a = .ok a1) :
    storeOpt storeString (child o nTarget) a.Target = .ok a1.Target :=
  storeOpt_child startUpdateFields (fun s => s.Target) nTarget _ storeString rfl
    (fun v s s1 hs => by
      dsimp only at hs
      obtain ⟨c, hc, rfl⟩ := Except.map_eq_ok hs
      exact hc)
    frame_start_Target o a a1 hp h

/-- What `t.temp.Oem` holds after the decode is the top-level member `Oem`. -/
theorem oem_of_payload {E S L : Type} (x : Common E S) (lk : LinkDecl L)
    (b : Bytes) (t : T E S L)
    (hp : plainIn nOem (parse b) = true)
    (h : storeOpt (storeStruct (tFields x lk)) (parse b) (T.zero x lk) = .ok t) :
    storeOpt storeRaw (child (parse b) nOem) [] = .ok t.temp.Oem :=
  storeOpt_child (tFields x lk) (fun t => t.temp.Oem) nOem _ storeRaw
    (findField_tFields x lk nOem _ (by decide) rfl)
    (fun v s s1 hs => by
      obtain ⟨u, hu, rfl⟩ := onTemp_store _ v s s1 hs
      dsimp only at hu
      obtain ⟨a, ha, rfl⟩ := Except.map_eq_ok hu
      exact ha)
    (frame_Oem x lk) (parse b) (T.zero x lk) t hp h

/-- What `t.FirmwareInventory` holds after the decode is the top-level member of
that name. -/
theorem firmware_of_payload {E S L : Type} (x : Common E S) (lk : LinkDecl L) (b : Bytes)
    (t : T E S L) (hp : plainIn nFirmwareInventory (parse b) = true)
    (h : storeOpt (storeStruct (tFields x lk)) (parse b) (T.zero x lk) = .ok t) :
    storeOpt lk.store (child (parse b) nFirmwareInventory) lk.zero = .ok t.FirmwareInventory :=
  storeOpt_child (tFields x lk) (fun t => t.FirmwareInventory) nFirmwareInventory _ lk.store
    (findField_tFields x lk nFirmwareInventory _ (by decide) rfl)
    (fun v s s1 hs => by
      dsimp only at hs
      obtain ⟨a, ha, rfl⟩ := Except.map_eq_ok hs
      exact ha)
    (frame_FirmwareInventory x lk) (parse b) (T.zero x lk) t hp h

/-- What `t.SoftwareInventory` holds after the decode is the top-level member of
that name. -/
theorem software_of_payload {E S L : Type} (x : Common E S) (lk : LinkDecl L) (b : Bytes)
    (t : T E S L) (hp : plainIn nSoftwareInventory (parse b) = true)
    (h : storeOpt (storeStruct (tFields x lk)) (parse b) (T.zero x lk) = .ok t) :
    storeOpt lk.store (child (parse b) nSoftwareInventory) lk.zero = .ok t.SoftwareInventory :=
  storeOpt_child (tFields x lk) (fun t => t.SoftwareInventory) nSoftwareInventory _ lk.store
    (findField_tFields x lk nSoftwareInventory _ (by decide) rfl)
    (fun v s s1 hs => by
      dsimp only at hs
      obtain ⟨a, ha, rfl⟩ := Except.map_eq_ok hs
      exact ha)
    (frame_SoftwareInventory x lk) (parse b) (T.zero x lk) t hp h

/-! ## The store: what does not depend on what -/

/-- Storing a payload into a struct is storing its members. -/
theorem storeMembers_of_storeOpt {σ : Type} (fields : List (Field σ)) (o : Option JValue)
    (s s1 : σ) (h : storeOpt (storeStruct fields) o s = .ok s1) :
    storeMembers fields (members o) s = .ok s1 := by
  cases o with
  | none => simpa [storeOpt, members, storeMembers] using h
  | some v =>
    cases v <;> simp [storeOpt, storeStruct] at h <;> simp [members, storeMembers, h]

/-- Two states of `t` have the same core when they agree in every field but the
four overwritten ones. -/
theorem core_eq_iff {E S : Type} (t1 t2 : T E S L) :
    t1.core = t2.core ↔
      t1.Actions = t2.Actions ∧ t1.FirmwareInventory = t2.FirmwareInventory
      ∧ t1.SoftwareInventory = t2.SoftwareInventory
      ∧ t1.temp.Entity = t2.temp.Entity ∧ t1.temp.ODataContext = t2.temp.ODataContext
      ∧ t1.temp.ODataType = t2.temp.ODataType ∧ t1.temp.Description = t2.temp.Description
      ∧ t1.temp.FirmwareInventory = t2.temp.FirmwareInventory
      ∧ t1.temp.SoftwareInventory = t2.temp.SoftwareInventory
      ∧ t1.temp.HTTPPushURI = t2.temp.HTTPPushURI
      ∧ t1.temp.MultipartHTTPPushURI = t2.temp.MultipartHTTPPushURI
      ∧ t1.temp.ServiceEnabled = t2.temp.ServiceEnabled ∧ t1.temp.Status = t2.temp.Status
      ∧ t1.temp.Oem = t2.temp.Oem ∧ t1.temp.rawData = t2.temp.rawData := by
  obtain ⟨u1, a1, f1, s1⟩ := t1
  obtain ⟨u2, a2, f2, s2⟩ := t2
  cases u1; cases u2
  simp only [T.core, T.mk.injEq, UpdateService.mk.injEq]
  tauto

/-- Whether a string store succeeds does not depend on the current value. -/
theorem storeString_total {v : JValue} {c a : Bytes} (c1 : Bytes)
    (h : storeString v c = .ok a) : ∃ a1, storeString v c1 = .ok a1 := by
  cases v <;> simp [storeString] at h ⊢

/-- Whether storing elements succeeds does not depend on the backing array. -/
theorem storeElems_total : ∀ (es : List JValue) (bk bk1 xs : List Bytes),
    storeElems es bk = .ok xs → ∃ xs1, storeElems es bk1 = .ok xs1 := by
  intro es
  induction es with
  | nil => intro bk bk1 xs _; exact ⟨[], rfl⟩
  | cons e es ih =>
    intro bk bk1 xs h
    simp only [storeElems] at h ⊢
    split at h
    · cases h
    · rename_i s hs
      split at h
      · cases h
      · rename_i rest hr
        obtain ⟨s1, hs1⟩ := storeString_total (bk1.headD []) hs
        obtain ⟨r1, hr1⟩ := ih bk.tail bk1.tail rest hr
        rw [hs1, hr1]
        exact ⟨_, rfl⟩

/-- Whether a slice store succeeds does not depend on the current slice. -/
theorem storeStrings_total {v : JValue} {c a : StringSlice} (c1 : StringSlice)
    (h : storeStrings v c = .ok a) : ∃ a1, storeStrings v c1 = .ok a1 := by
  cases v with
  | array r es =>
    cases es with
    | nil => exact ⟨_, rfl⟩
    | cons e es =>
      simp only [storeStrings] at h ⊢
      split at h
      · cases h
      · rename_i xs hx
        obtain ⟨xs1, h1⟩ := storeElems_total _ _ (c1.elems ++ c1.spare) _ hx
        rw [h1]
        exact ⟨_, rfl⟩
  | null => exact ⟨_, rfl⟩
  | bool b => simp [storeStrings] at h
  | number r => simp [storeStrings] at h
  | string r t => simp [storeStrings] at h
  | object r ms => simp [storeStrings] at h

/-- Every field of `t` acts alike on two states that agree outside the four
overwritten fields. -/
theorem field_core_congr {E S L : Type} (x : Common E S) (lk : LinkDecl L)
    (f : Field (T E S L)) (hf : f ∈ tFields x lk)
    (v : JValue) (t1 t2 t1a : T E S L) (hc : t1.core = t2.core) (h : f.store v t1 = .ok t1a) :
    ∃ t2a, f.store v t2 = .ok t2a ∧ t1a.core = t2a.core := by
  rw [core_eq_iff] at hc
  obtain ⟨c1, c2, c3, c4, c5, c6, c7, c8, c9, c10, c11, c12, c13, c14, c15⟩ := hc
  simp only [tFields, ownFields, List.mem_append, List.mem_map, List.mem_filter] at hf
  rcases hf with ⟨f1, -, rfl⟩ | ⟨g, hg, rfl⟩ | ho
  · simp only [onTemp, onEntity] at h ⊢
    obtain ⟨u, hu, rfl⟩ := Except.map_eq_ok h
    obtain ⟨e, he, rfl⟩ := Except.map_eq_ok hu
    rw [← c4, he]
    refine ⟨_, rfl, ?_⟩
    rw [core_eq_iff]
    simp [*]
  · simp only [tempFields, List.mem_cons, List.mem_singleton, List.not_mem_nil, or_false] at hg
    rcases hg with rfl | rfl | rfl | rfl | rfl | rfl | rfl | rfl | rfl | rfl | rfl | rfl
    · simp only [onTemp] at h ⊢
      obtain ⟨u, hu, rfl⟩ := Except.map_eq_ok h
      obtain ⟨a, ha, rfl⟩ := Except.map_eq_ok hu
      rw [← c5, ha]; refine ⟨_, rfl, ?_⟩; rw [core_eq_iff]; simp [*]
    · simp only [onTemp] at h ⊢
      obtain ⟨u, hu, rfl⟩ := Except.map_eq_ok h
      obtain ⟨a, ha, rfl⟩ := Except.map_eq_ok hu
      rw [← c6, ha]; refine ⟨_, rfl, ?_⟩; rw [core_eq_iff]; simp [*]
    · simp only [onTemp] at h ⊢
      obtain ⟨u, hu, rfl⟩ := Except.map_eq_ok h
      obtain ⟨a, ha, rfl⟩ := Except.map_eq_ok hu
      rw [← c7, ha]; refine ⟨_, rfl, ?_⟩; rw [core_eq_iff]; simp [*]
    · simp only [onTemp] at h ⊢
      obtain ⟨u, hu, rfl⟩ := Except.map_eq_ok h
      obtain ⟨a, ha, rfl⟩ := Except.map_eq_ok hu
      rw [← c10, ha]; refine ⟨_, rfl, ?_⟩; rw [core_eq_iff]; simp [*]
    · simp only [onTemp] at h ⊢
      obtain ⟨u, hu, rfl⟩ := Except.map_eq_ok h
      obtain ⟨a, ha, rfl⟩ := Except.map_eq_ok hu
      rw [← c11, ha]; refine ⟨_, rfl, ?_⟩; rw [core_eq_iff]; simp [*]
    · simp only [onTemp] at h ⊢
      obtain ⟨u, hu, rfl⟩ := Except.map_eq_ok h
      obtain ⟨a, ha, rfl⟩ := Except.map_eq_ok hu
      rw [← c12, ha]; refine ⟨_, rfl, ?_⟩; rw [core_eq_iff]; simp [*]
    · simp only [onTemp] at h ⊢
      obtain ⟨u, hu, rfl⟩ := Except.map_eq_ok h
      obtain ⟨a, ha, rfl⟩ := Except.map_eq_ok hu
      rw [← c13, ha]; refine ⟨_, rfl, ?_⟩; rw [core_eq_iff]; simp [*]
    · simp only [onTemp] at h ⊢
      obtain ⟨u, hu, rfl⟩ := Except.map_eq_ok h
      obtain ⟨a, ha, rfl⟩ := Except.map_eq_ok hu
      obtain ⟨a1, ha1⟩ := storeStrings_total t2.temp.TransferProtocol ha
      rw [ha1]; refine ⟨_, rfl, ?_⟩; rw [core_eq_iff]; simp [*]
    · simp only [onTemp] at h ⊢
      obtain ⟨u, hu, rfl⟩ := Except.map_eq_ok h
      obtain ⟨a, ha, rfl⟩ := Except.map_eq_ok hu
      obtain ⟨a1, ha1⟩ := storeString_total t2.temp.UpdateServiceTarget ha
      rw [ha1]; refine ⟨_, rfl, ?_⟩; rw [core_eq_iff]; simp [*]
    · simp only [onTemp] at h ⊢
      obtain ⟨u, hu, rfl⟩ := Except.map_eq_ok h
      obtain ⟨a, ha, rfl⟩ := Except.map_eq_ok hu
      obtain ⟨a1, ha1⟩ := storeString_total t2.temp.StartUpdateTarget ha
      rw [ha1]; refine ⟨_, rfl, ?_⟩; rw [core_eq_iff]; simp [*]
    · simp only [onTemp, storeRaw] at h ⊢
      obtain ⟨u, hu, rfl⟩ := Except.map_eq_ok h
      obtain ⟨a, ha, rfl⟩ := Except.map_eq_ok hu
      refine ⟨_, rfl, ?_⟩; rw [core_eq_iff]; simp [Except.map, *]
    · simp only [onTemp, storeRaw] at h ⊢
      obtain ⟨u, hu, rfl⟩ := Except.map_eq_ok h
      obtain ⟨a, ha, rfl⟩ := Except.map_eq_ok hu
      cases ha
      refine ⟨_, rfl, ?_⟩; rw [core_eq_iff]; simp [Except.map, *]
  · simp only [outerFields, List.mem_cons, List.mem_singleton, List.not_mem_nil, or_false] at ho
    rcases ho with rfl | rfl | rfl
    · dsimp only at h ⊢
      obtain ⟨a, ha, rfl⟩ := Except.map_eq_ok h
      rw [← c1, ha]; refine ⟨_, rfl, ?_⟩; rw [core_eq_iff]; simp [*]
    · dsimp only at h ⊢
      obtain ⟨a, ha, rfl⟩ := Except.map_eq_ok h
      rw [← c2, ha]; refine ⟨_, rfl, ?_⟩; rw [core_eq_iff]; simp [Except.map, *]
    · dsimp only at h ⊢
      obtain ⟨a, ha, rfl⟩ := Except.map_eq_ok h
      rw [← c3, ha]; refine ⟨_, rfl, ?_⟩; rw [core_eq_iff]; simp [Except.map, *]

/-- A member with one of the four overwritten names changes nothing outside
the four overwritten fields. -/
theorem overwritten_core {E S L : Type} (x : Common E S) (lk : LinkDecl L) (k : Bytes)
    (hk : k ∈ overwrittenNames) (f : Field (T E S L))
    (hf : findField (tFields x lk) k = some f) (v : JValue) (t t1 : T E S L)
    (h : f.store v t = .ok t1) : t1.core = t.core := by
  simp only [overwrittenNames, List.mem_cons, List.mem_singleton, List.not_mem_nil,
    or_false] at hk
  rcases hk with rfl | rfl | rfl | rfl
  · rw [findField_tFields x lk (bytesOf "TransferProtocol") _ (by decide) rfl] at hf
    cases hf
    simp only [onTemp] at h
    obtain ⟨u, hu, rfl⟩ := Except.map_eq_ok h
    obtain ⟨a, -, rfl⟩ := Except.map_eq_ok hu
    rw [core_eq_iff]; simp
  · rw [findField_tFields x lk (bytesOf "UpdateServiceTarget") _ (by decide) rfl] at hf
    cases hf
    simp only [onTemp] at h
    obtain ⟨u, hu, rfl⟩ := Except.map_eq_ok h
    obtain ⟨a, -, rfl⟩ := Except.map_eq_ok hu
    rw [core_eq_iff]; simp
  · rw [findField_tFields x lk (bytesOf "StartUpdateTarget") _ (by decide) rfl] at hf
    cases hf
    simp only [onTemp] at h
    obtain ⟨u, hu, rfl⟩ := Except.map_eq_ok h
    obtain ⟨a, -, rfl⟩ := Except.map_eq_ok hu
    rw [core_eq_iff]; simp
  · rw [findField_tFields x lk (bytesOf "OemActions") _ (by decide) rfl] at hf
    cases hf
    simp only [onTemp] at h
    obtain ⟨u, hu, rfl⟩ := Except.map_eq_ok h
    obtain ⟨a, -, rfl⟩ := Except.map_eq_ok hu
    rw [core_eq_iff]; simp

/-- Each of the four overwritten names selects a field. -/
theorem overwritten_found {E S L : Type} (x : Common E S) (lk : LinkDecl L) (k : Bytes)
    (hk : k ∈ overwrittenNames) : ∃ f, findField (tFields x lk) k = some f := by
  simp only [overwrittenNames, List.mem_cons, List.mem_singleton, List.not_mem_nil,
    or_false] at hk
  rcases hk with rfl | rfl | rfl | rfl
  · exact ⟨_, findField_tFields x lk (bytesOf "TransferProtocol") _ (by decide) rfl⟩
  · exact ⟨_, findField_tFields x lk (bytesOf "UpdateServiceTarget") _ (by decide) rfl⟩
  · exact ⟨_, findField_tFields x lk (bytesOf "StartUpdateTarget") _ (by decide) rfl⟩
  · exact ⟨_, findField_tFields x lk (bytesOf "OemActions") _ (by decide) rfl⟩

/-- Storing the same members into two states with the same core succeeds in both
or in neither, and gives states with the same core. -/
theorem storeMembers_core_congr {E S L : Type} (x : Common E S) (lk : LinkDecl L) :
    ∀ (ms : List (Bytes × JValue)) (t1 t2 t1a : T E S L), t1.core = t2.core →
      storeMembers (tFields x lk) ms t1 = .ok t1a →
      ∃ t2a, storeMembers (tFields x lk) ms t2 = .ok t2a ∧ t1a.core = t2a.core := by
  intro ms
  induction ms with
  | nil =>
    intro t1 t2 t1a hc h
    simp only [storeMembers] at h
    cases h
    exact ⟨t2, rfl, hc⟩
  | cons m ms ih =>
    intro t1 t2 t1a hc h
    obtain ⟨k, v⟩ := m
    cases hf : findField (tFields x lk) k with
    | none =>
      simp only [storeMembers, hf] at h ⊢
      exact ih t1 t2 t1a hc h
    | some f =>
      simp only [storeMembers, hf] at h ⊢
      cases hs : f.store v t1 with
      | error e => rw [hs] at h; cases h
      | ok s =>
        rw [hs] at h
        obtain ⟨s2, hs2, hc2⟩ := field_core_congr x lk f (findField_mem hf).1 v t1 t2 s hc hs
        rw [hs2]
        exact ih s s2 t1a hc2 h

/-- Leaving out the members with the four overwritten names changes nothing in
the core of a successful decode. -/
theorem storeMembers_withoutOverwritten {E S L : Type} (x : Common E S) (lk : LinkDecl L) :
    ∀ (ms : List (Bytes × JValue)) (t ta : T E S L),
      storeMembers (tFields x lk) ms t = .ok ta →
      ∃ tb, storeMembers (tFields x lk) (withoutOverwritten ms) t = .ok tb ∧ ta.core = tb.core := by
  intro ms
  induction ms with
  | nil =>
    intro t ta h
    exact ⟨ta, h, rfl⟩
  | cons m ms ih =>
    intro t ta h
    obtain ⟨k, v⟩ := m
    by_cases hk : k ∈ overwrittenNames
    · have hdrop : withoutOverwritten ((k, v) :: ms) = withoutOverwritten ms := by
        simp [withoutOverwritten, List.filter_cons, hk]
      rw [hdrop]
      obtain ⟨f, hf⟩ := overwritten_found x lk k hk
      simp only [storeMembers, hf] at h
      cases hs : f.store v t with
      | error e => rw [hs] at h; cases h
      | ok s =>
        rw [hs] at h
        have hc := overwritten_core x lk k hk f hf v t s hs
        obtain ⟨tb, htb, hcb⟩ := ih s ta h
        obtain ⟨tc, htc, hcc⟩ := storeMembers_core_congr x lk _ s t tb hc htb
        exact ⟨tc, htc, hcb.trans hcc⟩
    · have hkeep : withoutOverwritten ((k, v) :: ms) = (k, v) :: withoutOverwritten ms := by
        simp [withoutOverwritten, List.filter_cons, hk]
      rw [hkeep]
      cases hf : findField (tFields x lk) k with
      | none =>
        simp only [storeMembers, hf] at h ⊢
        exact ih t ta h
      | some f =>
        simp only [storeMembers, hf] at h ⊢
        cases hs : f.store v t with
        | error e => rw [hs] at h; cases h
        | ok s =>
          rw [hs] at h
          exact ih s ta h

/-- Members are stored one after the other. -/
theorem storeMembers_append {σ : Type} (fields : List (Field σ)) :
    ∀ (pre post : List (Bytes × JValue)) (s : σ),
      storeMembers fields (pre ++ post) s =
        match storeMembers fields pre s with
        | .error e => .error e
        | .ok s1 => storeMembers fields post s1 := by
  intro pre
  induction pre with
  | nil => intro post s; rfl
  | cons m pre ih =>
    intro post s
    obtain ⟨k, v⟩ := m
    simp only [List.cons_append, storeMembers]
    cases findField fields k with
    | none => exact ih post s
    | some f =>
      dsimp only
      cases f.store v s with
      | error e => rfl
      | ok s1 => exact ih post s1

/-- A member may be exchanged for one that its field stores alike. -/
theorem storeMembers_swap {σ : Type} (fields : List (Field σ)) (k : Bytes) (v1 v2 : JValue)
    (hsame : ∀ f, findField fields k = some f → ∀ s, f.store v1 s = f.store v2 s)
    (pre post : List (Bytes × JValue)) (s : σ) :
    storeMembers fields (pre ++ (k, v1) :: post) s
      = storeMembers fields (pre ++ (k, v2) :: post) s := by
  rw [storeMembers_append, storeMembers_append]
  cases storeMembers fields pre s with
  | error e => rfl
  | ok s1 =>
    dsimp only
    simp only [storeMembers]
    cases hf : findField fields k with
    | none => rfl
    | some f => dsimp only; rw [hsame f hf s1]

/-- The decode of a payload that has members is the store of its members. -/
theorem unmarshalT_of_members {E S L : Type} (x : Common E S) (lk : LinkDecl L) (b : Bytes)
    (hne : members (parse b) ≠ []) :
    unmarshalT x lk b = storeMembers (tFields x lk) (members (parse b)) (T.zero x lk) := by
  unfold unmarshalT
  cases hp : parse b with
  | none => rw [hp] at hne; simp [members] at hne
  | some v =>
    cases v with
    | object r ms => simp [members, storeStruct]
    | null => rw [hp] at hne; simp [members] at hne
    | bool c => rw [hp] at hne; simp [members] at hne
    | number r => rw [hp] at hne; simp [members] at hne
    | string r t => rw [hp] at hne; simp [members] at hne
    | array r es => rw [hp] at hne; simp [members] at hne

/-- Two link values with the same decoding are stored alike. -/
theorem link_store_same {E S : Type} (x : Common E S) (k : Bytes)
    (hk : k = nFirmwareInventory ∨ k = nSoftwareInventory) (v1 v2 : JValue)
    (hv : Link.decode v1 = Link.decode v2) :
    ∀ f, findField (tFields x Link.spec) k = some f → ∀ s, f.store v1 s = f.store v2 s := by
  intro f hf s
  rcases hk with rfl | rfl
  · rw [findField_tFields x Link.spec nFirmwareInventory _ (by decide) rfl] at hf
    cases hf
    show Except.map _ (Link.decode v1) = Except.map _ (Link.decode v2)
    rw [hv]
  · rw [findField_tFields x Link.spec nSoftwareInventory _ (by decide) rfl] at hf
    cases hf
    show Except.map _ (Link.decode v1) = Except.map _ (Link.decode v2)
    rw [hv]

/-- A name carried once, and by no other member up to letter case, is plain, and
its member is found. -/
theorem plainIn_of_named_nil (k : Bytes) (raw : Bytes) (pre post : List (Bytes × JValue))
    (v : JValue) (hpre : named k pre = []) (hpost : named k post = []) :
    plainIn k (some (.object raw (pre ++ (k, v) :: post))) = true
    ∧ child (some (.object raw (pre ++ (k, v) :: post))) k = some v := by
  have hn : named k (pre ++ (k, v) :: post) = [(k, v)] := by
    simp only [named] at hpre hpost ⊢
    simp [List.filter_append, List.filter_cons, hpre, hpost]
  constructor
  · simp [plainIn, hn]
  · have hfind : pre.find? (fun m => m.1 == k) = none := by
      rw [List.find?_eq_none]
      intro m hm hmk
      have : m ∈ named k pre := by
        simp only [named, List.mem_filter]
        exact ⟨hm, by simp at hmk; simp [hmk]⟩
      rw [hpre] at this
      exact List.not_mem_nil _ this
    simp [child, JValue.member?, List.find?_append, hfind]

/-- When `UnmarshalJSON` returns an error the receiver is as it was. -/
theorem UnmarshalJSON_error_target {E S L : Type} (x : Common E S) (lk : LinkDecl L)
    (us0 : UpdateService E S)
    (b : Bytes) (h : (UnmarshalJSON x lk us0 b).2 ≠ none) :
    (UnmarshalJSON x lk us0 b).1 = us0 := by
  unfold UnmarshalJSON at h ⊢
  cases hu : unmarshalT x lk b with
  | error e => rfl
  | ok t => rw [hu] at h; simp at h

/-- A payload that has members is an object with these members. -/
theorem parse_of_members (b : Bytes) (hne : members (parse b) ≠ []) :
    ∃ r, parse b = some (.object r (members (parse b))) := by
  cases hp : parse b with
  | none => rw [hp] at hne; simp [members] at hne
  | some v =>
    cases v with
    | object r ms1 => exact ⟨r, rfl⟩
    | null => rw [hp] at hne; simp [members] at hne
    | bool c => rw [hp] at hne; simp [members] at hne
    | number r => rw [hp] at hne; simp [members] at hne
    | string r t => rw [hp] at hne; simp [members] at hne
    | array r es => rw [hp] at hne; simp [members] at hne

/-! ## The store: a payload without its links -/

/-- Storing the same members into two states that a congruence of the fields
relates succeeds in both or in neither, and gives related states. -/
theorem storeMembers_congr {σ : Type} (fields : List (Field σ)) (core : σ → σ)
    (hcongr : ∀ f ∈ fields, ∀ v s1 s2 s1a, core s1 = core s2 → f.store v s1 = .ok s1a →
      ∃ s2a, f.store v s2 = .ok s2a ∧ core s1a = core s2a) :
    ∀ (ms : List (Bytes × JValue)) (s1 s2 s1a : σ), core s1 = core s2 →
      storeMembers fields ms s1 = .ok s1a →
      ∃ s2a, storeMembers fields ms s2 = .ok s2a ∧ core s1a = core s2a := by
  intro ms
  induction ms with
  | nil =>
    intro s1 s2 s1a hc h
    simp only [storeMembers] at h
    cases h
    exact ⟨s2, rfl, hc⟩
  | cons m ms ih =>
    intro s1 s2 s1a hc h
    obtain ⟨k, v⟩ := m
    cases hf : findField fields k with
    | none =>
      simp only [storeMembers, hf] at h ⊢
      exact ih s1 s2 s1a hc h
    | some f =>
      simp only [storeMembers, hf] at h ⊢
      cases hs : f.store v s1 with
      | error e => rw [hs] at h; cases h
      | ok s =>
        rw [hs] at h
        obtain ⟨s2b, hs2, hc2⟩ := hcongr f (findField_mem hf).1 v s1 s2 s hc hs
        rw [hs2]
        exact ih s s2b s1a hc2 h

/-- Leaving out members whose fields write nothing of the core changes nothing
in the core of a successful decode, and the decode still succeeds. -/
theorem storeMembers_drop {σ : Type} (fields : List (Field σ)) (core : σ → σ)
    (drop : Bytes → Bool)
    (hcongr : ∀ f ∈ fields, ∀ v s1 s2 s1a, core s1 = core s2 → f.store v s1 = .ok s1a →
      ∃ s2a, f.store v s2 = .ok s2a ∧ core s1a = core s2a)
    (hdrop : ∀ k, drop k = true → ∀ f, findField fields k = some f →
      ∀ v s s1, f.store v s = .ok s1 → core s1 = core s) :
    ∀ (ms : List (Bytes × JValue)) (s sa : σ), storeMembers fields ms s = .ok sa →
      ∃ sb, storeMembers fields (ms.filter (fun m => !drop m.1)) s = .ok sb
        ∧ core sa = core sb := by
  intro ms
  induction ms with
  | nil =>
    intro s sa h
    exact ⟨sa, h, rfl⟩
  | cons m ms ih =>
    intro s sa h
    obtain ⟨k, v⟩ := m
    cases hk : drop k with
    | true =>
      have hfilter : ((k, v) :: ms).filter (fun m => !drop m.1)
          = ms.filter (fun m => !drop m.1) := by
        simp [List.filter_cons, hk]
      rw [hfilter]
      cases hf : findField fields k with
      | none =>
        simp only [storeMembers, hf] at h
        exact ih s sa h
      | some f =>
        simp only [storeMembers, hf] at h
        cases hs : f.store v s with
        | error e => rw [hs] at h; cases h
        | ok s1 =>
          rw [hs] at h
          have hc := hdrop k hk f hf v s s1 hs
          obtain ⟨sb, hsb, hcb⟩ := ih s1 sa h
          obtain ⟨sc, hsc, hcc⟩ := storeMembers_congr fields core hcongr _ s1 s sb hc hsb
          exact ⟨sc, hsc, hcb.trans hcc⟩
    | false =>
      have hfilter : ((k, v) :: ms).filter (fun m => !drop m.1)
          = (k, v) :: ms.filter (fun m => !drop m.1) := by
        simp [List.filter_cons, hk]
      rw [hfilter]
      cases hf : findField fields k with
      | none =>
        simp only [storeMembers, hf] at h ⊢
        exact ih s sa h
      | some f =>
        simp only [storeMembers, hf] at h ⊢
        cases hs : f.store v s with
        | error e => rw [hs] at h; cases h
        | ok s1 =>
          rw [hs] at h
          exact ih s1 sa h

/-- Two states of `t` are the same without their links when they agree in
`temp` and in `Actions`. -/
theorem linkless_eq_iff {E S : Type} (t1 t2 : T E S Bytes) :
    t1.linkless = t2.linkless ↔ t1.temp = t2.temp ∧ t1.Actions = t2.Actions := by
  obtain ⟨u1, a1, f1, s1⟩ := t1
  obtain ⟨u2, a2, f2, s2⟩ := t2
  simp only [T.linkless, T.mk.injEq]
  tauto

/-- With the link of the spec, every field of `t` acts alike on two states
that agree outside the links. -/
theorem field_linkless_congr {E S : Type} (x : Common E S) :
    ∀ f ∈ tFields x Link.spec, ∀ v (t1 t2 t1a : T E S Bytes), t1.linkless = t2.linkless →
      f.store v t1 = .ok t1a → ∃ t2a, f.store v t2 = .ok t2a ∧ t1a.linkless = t2a.linkless := by
  intro f hf v t1 t2 t1a hc h
  rw [linkless_eq_iff] at hc
  obtain ⟨c1, c2⟩ := hc
  simp only [tFields, ownFields, List.mem_append, List.mem_map, List.mem_filter] at hf
  rcases hf with ⟨f1, -, rfl⟩ | ⟨g, -, rfl⟩ | ho
  · simp only [onTemp] at h ⊢
    obtain ⟨u, hu, rfl⟩ := Except.map_eq_ok h
    rw [← c1, hu]
    exact ⟨_, rfl, by rw [linkless_eq_iff]; exact ⟨rfl, c2⟩⟩
  · simp only [onTemp] at h ⊢
    obtain ⟨u, hu, rfl⟩ := Except.map_eq_ok h
    rw [← c1, hu]
    exact ⟨_, rfl, by rw [linkless_eq_iff]; exact ⟨rfl, c2⟩⟩
  · simp only [outerFields, List.mem_cons, List.mem_singleton, List.not_mem_nil, or_false] at ho
    rcases ho with rfl | rfl | rfl
    · dsimp only at h ⊢
      obtain ⟨a, ha, rfl⟩ := Except.map_eq_ok h
      rw [← c2, ha]
      exact ⟨_, rfl, by rw [linkless_eq_iff]; exact ⟨c1, rfl⟩⟩
    · dsimp only [Link.spec] at h ⊢
      obtain ⟨a, ha, rfl⟩ := Except.map_eq_ok h
      rw [ha]
      exact ⟨_, rfl, by rw [linkless_eq_iff]; exact ⟨c1, c2⟩⟩
    · dsimp only [Link.spec] at h ⊢
      obtain ⟨a, ha, rfl⟩ := Except.map_eq_ok h
      rw [ha]
      exact ⟨_, rfl, by rw [linkless_eq_iff]; exact ⟨c1, c2⟩⟩

/-- A member with the name of a link writes that link only. -/
theorem link_linkless {E S : Type} (x : Common E S) (k : Bytes)
    (hk : (k == nFirmwareInventory || k == nSoftwareInventory) = true)
    (f : Field (T E S Bytes)) (hf : findField (tFields x Link.spec) k = some f)
    (v : JValue) (t t1 : T E S Bytes) (h : f.store v t = .ok t1) :
    t1.linkless = t.linkless := by
  simp only [Bool.or_eq_true, beq_iff_eq] at hk
  rcases hk with rfl | rfl
  · rw [findField_tFields x Link.spec nFirmwareInventory _ (by decide) rfl] at hf
    cases hf
    dsimp only at h
    obtain ⟨a, -, rfl⟩ := Except.map_eq_ok h
    rfl
  · rw [findField_tFields x Link.spec nSoftwareInventory _ (by decide) rfl] at hf
    cases hf
    dsimp only at h
    obtain ⟨a, -, rfl⟩ := Except.map_eq_ok h
    rfl

/-- With the link of the spec, a payload that decodes still decodes when its
link members are taken away. -/
theorem unmarshalT_withoutLinks {E S : Type} (x : Common E S) (b b0 raw0 : Bytes) (t : T E S Bytes)
    (h : unmarshalT x Link.spec b = .ok t)
    (h0 : parse b0 = some (.object raw0 (withoutLinks (members (parse b))))) :
    ∃ t0, unmarshalT x Link.spec b0 = .ok t0 ∧ t.linkless = t0.linkless := by
  have hs : storeMembers (tFields x Link.spec) (members (parse b)) (T.zero x Link.spec) = .ok t := by
    apply storeMembers_of_storeOpt
    unfold unmarshalT at h
    cases hp : parse b with
    | none => rw [hp] at h; cases h
    | some v => rw [hp] at h; simpa [storeOpt] using h
  obtain ⟨t0, ht0, hc⟩ := storeMembers_drop (tFields x Link.spec) T.linkless
    (fun k => k == nFirmwareInventory || k == nSoftwareInventory)
    (field_linkless_congr x) (link_linkless x) _ _ _ hs
  refine ⟨t0, ?_, hc⟩
  simp only [unmarshalT, h0, storeStruct]
  exact ht0

/-- With the link members taken away no member is left that a plain link
name could stand for. -/
theorem named_withoutLinks (k : Bytes) (hk : k = nFirmwareInventory ∨ k = nSoftwareInventory)
    (v : Option JValue) (hp : plainIn k v = true) :
    named k (withoutLinks (members v)) = [] := by
  rw [List.eq_nil_iff_forall_not_mem]
  intro m hm
  simp only [named, withoutLinks, List.mem_filter, Bool.not_eq_true', Bool.or_eq_false_iff,
    beq_eq_false_iff_ne, ne_eq, beq_iff_eq] at hm
  obtain ⟨⟨hmem, hne1, hne2⟩, hfold⟩ := hm
  cases v with
  | none => simp [members] at hmem
  | some w =>
    cases w with
    | object r ms =>
      simp only [members] at hmem
      simp only [plainIn, Bool.and_eq_true, decide_eq_true_eq, List.all_eq_true, beq_iff_eq] at hp
      have hmk : m.1 = k := hp.2 m (by
        simp only [named, List.mem_filter, beq_iff_eq]
        exact ⟨hmem, hfold⟩)
      rcases hk with rfl | rfl
      · exact hne1 hmk
      · exact hne2 hmk
    | null => simp [members] at hmem
    | bool c => simp [members] at hmem
    | number r => simp [members] at hmem
    | string r t => simp [members] at hmem
    | array r es => simp [members] at hmem

/-- An object none of whose members a name could stand for has the name
plain, and no member of that name. -/
theorem plainIn_of_named_eq_nil (k raw : Bytes) (ms : List (Bytes × JValue))
    (h : named k ms = []) :
    plainIn k (some (.object raw ms)) = true ∧ child (some (.object raw ms)) k = none := by
  constructor
  · simp [plainIn, h]
  · have hfind : ms.find? (fun m => m.1 == k) = none := by
      rw [List.find?_eq_none]
      intro m hm hmk
      have : m ∈ named k ms := by
        simp only [named, List.mem_filter, beq_iff_eq]
        simp only [beq_iff_eq] at hmk
        exact ⟨hm, by rw [hmk]⟩
      rw [h] at this
      cases this
    simp [child, JValue.member?, hfind]

/-- With the link of the spec, the payload of a successful decode still
decodes when its link members are taken away, and the link whose name was
plain is then empty. -/
theorem UnmarshalJSON_withoutLinks {E S : Type} (x : Common E S) (us0 us1 : UpdateService E S)
    (b b0 raw0 : Bytes) (hok : (UnmarshalJSON x Link.spec us0 b).2 = none)
    (h0 : parse b0 = some (.object raw0 (withoutLinks (members (parse b))))) :
    (UnmarshalJSON x Link.spec us1 b0).2 = none
    ∧ (plainIn nFirmwareInventory (parse b) = true →
        (UnmarshalJSON x Link.spec us1 b0).1.FirmwareInventory = [])
    ∧ (plainIn nSoftwareInventory (parse b) = true →
        (UnmarshalJSON x Link.spec us1 b0).1.SoftwareInventory = []) := by
  obtain ⟨t, -, ht, -⟩ := UnmarshalJSON_ok x Link.spec us0 b hok
  obtain ⟨t0, ht0, -⟩ := unmarshalT_withoutLinks x b b0 raw0 t ht h0
  have hok0 : (UnmarshalJSON x Link.spec us1 b0).2 = none := by
    simp only [UnmarshalJSON, ht0]
  obtain ⟨t1, hs1, -, hus⟩ := UnmarshalJSON_ok x Link.spec us1 b0 hok0
  refine ⟨hok0, ?_, ?_⟩
  · intro hp
    obtain ⟨p0, c0⟩ := plainIn_of_named_eq_nil nFirmwareInventory raw0 _
      (named_withoutLinks nFirmwareInventory (Or.inl rfl) (parse b) hp)
    rw [← h0] at p0 c0
    have e := storeOpt_link (firmware_of_payload x Link.spec b0 t1 p0 hs1)
    rw [hus]
    dsimp only [Link.spec]
    rw [e, c0]
    rfl
  · intro hp
    obtain ⟨p0, c0⟩ := plainIn_of_named_eq_nil nSoftwareInventory raw0 _
      (named_withoutLinks nSoftwareInventory (Or.inr rfl) (parse b) hp)
    rw [← h0] at p0 c0
    have e := storeOpt_link (software_of_payload x Link.spec b0 t1 p0 hs1)
    rw [hus]
    dsimp only [Link.spec]
    rw [e, c0]
    rfl

/-- The decode returns no error exactly when the decode into `t` gives a `t`. -/
theorem UnmarshalJSON_none_iff {E S L : Type} (x : Common E S) (lk : LinkDecl L)
    (us0 : UpdateService E S) (b : Bytes) :
    (UnmarshalJSON x lk us0 b).2 = none ↔ ∃ t, unmarshalT x lk b = .ok t := by
  unfold UnmarshalJSON
  cases unmarshalT x lk b with
  | error e => simp
  | ok t => simp

/-- With the link of the spec, a link member that decodes neither makes the
store of the members fail nor mends a store that fails without it. -/
theorem storeMembers_link_member {E S : Type} (x : Common E S) (k : Bytes)
    (hk : k = nFirmwareInventory ∨ k = nSoftwareInventory) (v : JValue) (u : Bytes)
    (hv : Link.decode v = .ok u) (pre post : List (Bytes × JValue)) (z : T E S Bytes) :
    (∃ t, storeMembers (tFields x Link.spec) (pre ++ (k, v) :: post) z = .ok t)
      ↔ ∃ t, storeMembers (tFields x Link.spec) (pre ++ post) z = .ok t := by
  rw [storeMembers_append, storeMembers_append]
  cases storeMembers (tFields x Link.spec) pre z with
  | error e => simp
  | ok s1 =>
    dsimp only
    have hstep : ∃ s2 : T E S Bytes, s2.linkless = s1.linkless ∧
        storeMembers (tFields x Link.spec) ((k, v) :: post) s1
          = storeMembers (tFields x Link.spec) post s2 := by
      rcases hk with rfl | rfl
      · refine ⟨{ s1 with FirmwareInventory := u }, rfl, ?_⟩
        simp only [storeMembers,
          findField_tFields x Link.spec nFirmwareInventory _ (by decide) rfl]
        dsimp only [Link.spec]
        rw [hv]
        rfl
      · refine ⟨{ s1 with SoftwareInventory := u }, rfl, ?_⟩
        simp only [storeMembers,
          findField_tFields x Link.spec nSoftwareInventory _ (by decide) rfl]
        dsimp only [Link.spec]
        rw [hv]
        rfl
    obtain ⟨s2, hc, hs⟩ := hstep
    rw [hs]
    constructor
    · rintro ⟨t, ht⟩
      obtain ⟨t1, ht1, -⟩ := storeMembers_congr (tFields x Link.spec) T.linkless
        (field_linkless_congr x) post s2 s1 t hc ht
      exact ⟨t1, ht1⟩
    · rintro ⟨t, ht⟩
      obtain ⟨t1, ht1, -⟩ := storeMembers_congr (tFields x Link.spec) T.linkless
        (field_linkless_congr x) post s1 s2 t hc.symm ht
      exact ⟨t1, ht1⟩

/-- With the link of the spec, a payload with a link member that decodes
returns no error exactly when the payload without that member returns none. -/
theorem UnmarshalJSON_link_member {E S : Type} (x : Common E S) (us0 us1 : UpdateService E S)
    (b b0 raw0 k : Bytes) (hk : k = nFirmwareInventory ∨ k = nSoftwareInventory)
    (v : JValue) (u : Bytes) (hv : Link.decode v = .ok u) (pre post : List (Bytes × JValue))
    (h : members (parse b) = pre ++ (k, v) :: post)
    (h0 : parse b0 = some (.object raw0 (pre ++ post))) :
    (UnmarshalJSON x Link.spec us0 b).2 = none ↔ (UnmarshalJSON x Link.spec us1 b0).2 = none := by
  rw [UnmarshalJSON_none_iff, UnmarshalJSON_none_iff,
    unmarshalT_of_members x Link.spec b (by rw [h]; simp), h]
  have e0 : unmarshalT x Link.spec b0
      = storeMembers (tFields x Link.spec) (pre ++ post) (T.zero x Link.spec) := by
    simp only [unmarshalT, h0, storeStruct]
  rw [e0]
  exact storeMembers_link_member x k hk v u hv pre post _

/-! ## The decode: what reaches the entity -/

/-- C1 (amended). For every payload that `UnmarshalJSON` decodes without
error and in which the names on the way to the action members are plain
(`Actions` among the top-level members, the two action names among the
members of `Actions`, `Target` and the allowable-values name among the
members of each action: spelled exactly so wherever they occur up to letter
case, and at most once), `UpdateServiceTarget` is the `Target` of the
`Actions` member `#UpdateService.SimpleUpdate`, `TransferProtocol` is that
action's allowable-values list, element by element in the same order, and
`StartUpdateTarget` is the `Target` of the member `#UpdateService.StartUpdate`;
when `Actions`, or the action, is absent, the targets are empty strings and
`TransferProtocol` is empty. -/
theorem UnmarshalJSON_actions {E S L : Type} (x : Common E S) (lk : LinkDecl L)
    (us0 : UpdateService E S)
    (b : Bytes) (hok : (UnmarshalJSON x lk us0 b).2 = none)
    (hplain : actionsPlain (parse b) = true) :
    (UnmarshalJSON x lk us0 b).1.UpdateServiceTarget
        = textOf (child (child (child (parse b) nActions) nSimpleUpdate) nTarget)
    ∧ (UnmarshalJSON x lk us0 b).1.TransferProtocol.elems
        = textsOf (child (child (child (parse b) nActions) nSimpleUpdate) nAllowable)
    ∧ (UnmarshalJSON x lk us0 b).1.StartUpdateTarget
        = textOf (child (child (child (parse b) nActions) nStartUpdate) nTarget)
    ∧ (child (parse b) nActions = none →
        (UnmarshalJSON x lk us0 b).1.UpdateServiceTarget = []
        ∧ (UnmarshalJSON x lk us0 b).1.TransferProtocol.elems = []
        ∧ (UnmarshalJSON x lk us0 b).1.StartUpdateTarget = [])
    ∧ (child (child (parse b) nActions) nSimpleUpdate = none →
        (UnmarshalJSON x lk us0 b).1.UpdateServiceTarget = []
        ∧ (UnmarshalJSON x lk us0 b).1.TransferProtocol.elems = [])
    ∧ (child (child (parse b) nActions) nStartUpdate = none →
        (UnmarshalJSON x lk us0 b).1.StartUpdateTarget = []) := by
  obtain ⟨t, ht, -, hus⟩ := UnmarshalJSON_ok x lk us0 b hok
  simp only [actionsPlain, Bool.and_eq_true] at hplain
  obtain ⟨⟨⟨⟨⟨p1, p2⟩, p3⟩, p4⟩, p5⟩, p6⟩ := hplain
  have hA := actions_of_payload x lk b t p1 ht
  have hSU := simpleUpdate_of_actions _ _ _ p2 hA
  have hST := startUpdate_of_actions _ _ _ p3 hA
  have e1 := storeOpt_string (target_of_simpleUpdate _ _ _ p4 hSU)
  have e2 := storeOpt_strings (allowable_of_simpleUpdate _ _ _ p5 hSU)
  have e3 := storeOpt_string (target_of_startUpdate _ _ _ p6 hST)
  rw [hus]
  dsimp only
  refine ⟨e1, e2, e3, ?_, ?_, ?_⟩
  · intro h0
    rw [e1, e2, e3, h0]
    exact ⟨rfl, rfl, rfl⟩
  · intro h0
    rw [e1, e2, h0]
    exact ⟨rfl, rfl⟩
  · intro h0
    rw [e3, h0]
    rfl

/-- C1, at the scenario payload of the spec: it decodes, its names are
plain, and the targets and the protocol list are the ones the spec gives. -/
theorem UnmarshalJSON_actions_witness :
    (decodeInto fresh scenario).2 = none
    ∧ actionsPlain (parse scenario) = true
    ∧ (decodeInto fresh scenario).1.UpdateServiceTarget
        = bytesOf "/x/Actions/SimpleUpdate"
    ∧ (decodeInto fresh scenario).1.TransferProtocol.elems
        = [bytesOf "HTTP", bytesOf "HTTPS"]
    ∧ (decodeInto fresh scenario).1.StartUpdateTarget = [] :=
  have h := UnmarshalJSON_actions scenarioCommon Link.spec fresh scenario (by decide) (by decide)
  ⟨by decide, by decide, h.1.trans (by decide), h.2.1.trans (by decide),
    h.2.2.1.trans (by decide)⟩

/-- C1 as stated fails: a payload with no `Actions` member, only an `actions`
one, decodes to a non-empty `UpdateServiceTarget`; and in a payload with both,
`UpdateServiceTarget` is not the target under the `Actions` member. -/
theorem UnmarshalJSON_actions_counterexample :
    ((decodeInto fresh lowerActions).2 = none
      ∧ child (parse lowerActions) nActions = none
      ∧ (decodeInto fresh lowerActions).1.UpdateServiceTarget = bytesOf "/t"
      ∧ (decodeInto fresh lowerActions).1.UpdateServiceTarget ≠ [])
    ∧ ((decodeInto fresh mixedActions).2 = none
      ∧ textOf (child (child (child (parse mixedActions) nActions) nSimpleUpdate) nTarget)
          = bytesOf "/a"
      ∧ (decodeInto fresh mixedActions).1.UpdateServiceTarget
          = bytesOf "/b") := by
  refine ⟨⟨by decide, rfl, by decide, by decide⟩, ⟨by decide, by decide, by decide⟩⟩

/-- C2 (amended). For every payload that `UnmarshalJSON` decodes without
error and in which the names `FirmwareInventory` and `SoftwareInventory` are
plain among the top-level members (spelled exactly so wherever they occur up
to letter case, and at most once), each of the two link fields is the URI of
the member of its name (the `@odata.id` of the link object); an absent link
member gives the empty string, and does not make the decode fail: the payload
with its link members taken away decodes as well, to empty link fields. -/
theorem UnmarshalJSON_links {E S : Type} (x : Common E S) (us0 : UpdateService E S)
    (b : Bytes) (hok : (UnmarshalJSON x Link.spec us0 b).2 = none)
    (hF : plainIn nFirmwareInventory (parse b) = true)
    (hS : plainIn nSoftwareInventory (parse b) = true) :
    (UnmarshalJSON x Link.spec us0 b).1.FirmwareInventory = uriOf (child (parse b) nFirmwareInventory)
    ∧ (UnmarshalJSON x Link.spec us0 b).1.SoftwareInventory = uriOf (child (parse b) nSoftwareInventory)
    ∧ (child (parse b) nFirmwareInventory = none →
        (UnmarshalJSON x Link.spec us0 b).1.FirmwareInventory = [])
    ∧ (child (parse b) nSoftwareInventory = none →
        (UnmarshalJSON x Link.spec us0 b).1.SoftwareInventory = [])
    ∧ (∀ (us1 : UpdateService E S) (b0 raw0 : Bytes),
        parse b0 = some (.object raw0 (withoutLinks (members (parse b)))) →
        (UnmarshalJSON x Link.spec us1 b0).2 = none
        ∧ (UnmarshalJSON x Link.spec us1 b0).1.FirmwareInventory = []
        ∧ (UnmarshalJSON x Link.spec us1 b0).1.SoftwareInventory = []) := by
  refine ⟨?_, ?_, ?_, ?_, ?_⟩
  all_goals try obtain ⟨t, ht, -, hus⟩ := UnmarshalJSON_ok x Link.spec us0 b hok
  all_goals try have e1 := storeOpt_link (firmware_of_payload x Link.spec b t hF ht)
  all_goals try have e2 := storeOpt_link (software_of_payload x Link.spec b t hS ht)
  · rw [hus]; exact e1
  · rw [hus]; exact e2
  · intro h0; rw [hus]; dsimp only; rw [e1, h0]; rfl
  · intro h0; rw [hus]; dsimp only; rw [e2, h0]; rfl
  · intro us1 b0 raw0 h0
    have h := UnmarshalJSON_withoutLinks x us0 us1 b b0 raw0 hok h0
    exact ⟨h.1, h.2.1 hF, h.2.2 hS⟩

/-- C2, at the scenario payload of the spec: the firmware link is `/x/Fw`,
the absent software link is empty, and the decode does not fail. -/
theorem UnmarshalJSON_links_witness :
    (decodeInto fresh scenario).2 = none
    ∧ plainIn nFirmwareInventory (parse scenario) = true
    ∧ plainIn nSoftwareInventory (parse scenario) = true
    ∧ child (parse scenario) nSoftwareInventory = none
    ∧ (decodeInto fresh scenario).1.FirmwareInventory = bytesOf "/x/Fw"
    ∧ (decodeInto fresh scenario).1.SoftwareInventory = []
    ∧ members (parse scenarioLinkless) = withoutLinks (members (parse scenario))
    ∧ (decodeInto fresh scenarioLinkless).2 = none
    ∧ (decodeInto fresh scenarioLinkless).1.FirmwareInventory = [] :=
  have h := UnmarshalJSON_links scenarioCommon fresh scenario (by decide) (by decide) (by decide)
  have h0 := h.2.2.2.2 fresh scenarioLinkless scenarioLinkless rfl
  ⟨by decide, by decide, by decide, rfl, h.1.trans (by decide), h.2.2.2.1 rfl,
    rfl, h0.1, h0.2.1⟩

/-- C2 as stated fails: a payload with no `FirmwareInventory` member, only a
`firmwareinventory` one, decodes to a non-empty `FirmwareInventory` field. -/
theorem UnmarshalJSON_links_counterexample :
    (decodeInto fresh lowerLink).2 = none
    ∧ child (parse lowerLink) nFirmwareInventory = none
    ∧ (decodeInto fresh lowerLink).1.FirmwareInventory = bytesOf "/x/Fw"
    ∧ (decodeInto fresh lowerLink).1.FirmwareInventory ≠ [] := by
  refine ⟨by decide, rfl, by decide, by decide⟩

/-- C3. For every input that `UnmarshalJSON` decodes without error, the stored
`rawData` is the input itself, byte for byte, and the result does not depend
on the state of the receiver: decoding the same input into any other
receiver gives the same entity, `rawData` included. -/
theorem UnmarshalJSON_rawData {E S L : Type} (x : Common E S) (lk : LinkDecl L)
    (us0 : UpdateService E S)
    (b : Bytes) (hok : (UnmarshalJSON x lk us0 b).2 = none) :
    (UnmarshalJSON x lk us0 b).1.rawData = b
    ∧ (UnmarshalJSON x lk us0 b).1.rawData.length = b.length
    ∧ ∀ us1 : UpdateService E S, UnmarshalJSON x lk us1 b = UnmarshalJSON x lk us0 b := by
  unfold UnmarshalJSON at hok ⊢
  cases hu : unmarshalT x lk b with
  | error e => rw [hu] at hok; simp at hok
  | ok t => exact ⟨rfl, rfl, fun _ => rfl⟩

/-- C3, at the scenario payload of the spec, decoded into a fresh receiver
and into one that holds another payload. -/
theorem UnmarshalJSON_rawData_witness :
    (decodeInto fresh scenario).2 = none
    ∧ (decodeInto fresh scenario).1.rawData = scenario
    ∧ (decodeInto fresh scenario).1.rawData.length = 199
    ∧ decodeInto (decodeInto fresh withOem).1 scenario
        = decodeInto fresh scenario :=
  have h := UnmarshalJSON_rawData scenarioCommon Link.spec fresh scenario (by decide)
  ⟨by decide, h.1, h.2.1.trans (by decide), h.2.2 _⟩

/-- C4. For every input on which `json.Unmarshal` into `t` fails (the text is
not JSON, or a value does not fit a declared field, an action or a link),
`UnmarshalJSON` returns that error and the receiver is exactly as it was
before the call. -/
theorem UnmarshalJSON_failure {E S L : Type} (x : Common E S) (lk : LinkDecl L)
    (us0 : UpdateService E S)
    (b : Bytes) (e : DecodeError) (hfail : unmarshalT x lk b = .error e) :
    (UnmarshalJSON x lk us0 b).2 = some e ∧ (UnmarshalJSON x lk us0 b).1 = us0 := by
  unfold UnmarshalJSON
  rw [hfail]
  exact ⟨rfl, rfl⟩

/-- C4, at a payload cut short and at one with a string where a boolean is
declared, each decoded into a receiver that holds the scenario payload. -/
theorem UnmarshalJSON_failure_witness :
    parse truncated = none
    ∧ unmarshalT scenarioCommon Link.spec truncated = .error .malformed
    ∧ (decodeInto (decodeInto fresh scenario).1 truncated).2
        = some .malformed
    ∧ (decodeInto (decodeInto fresh scenario).1 truncated).1
        = (decodeInto fresh scenario).1
    ∧ unmarshalT scenarioCommon Link.spec mismatched = .error .typeMismatch
    ∧ (decodeInto (decodeInto fresh scenario).1 mismatched).1
        = (decodeInto fresh scenario).1 :=
  have h1 := UnmarshalJSON_failure scenarioCommon Link.spec (decodeInto fresh scenario).1
    truncated .malformed rfl
  have h2 := UnmarshalJSON_failure scenarioCommon Link.spec (decodeInto fresh scenario).1
    mismatched .typeMismatch rfl
  ⟨rfl, rfl, h1.1, h1.2, rfl, h2.2⟩

/-- C5 (amended). For every payload that `UnmarshalJSON` decodes without
error and in which `Actions` is plain among the top-level members and `Oem`
among the members of `Actions`, `OemActions` is the input text of the value of
the `Actions` member `Oem`, a part of the input as it stands, and is empty
when `Actions` has no `Oem` member: members of `Actions` under other names that
are not schema actions are skipped. -/
theorem UnmarshalJSON_oemActions {E S L : Type} (x : Common E S) (lk : LinkDecl L)
    (us0 : UpdateService E S)
    (b : Bytes) (hok : (UnmarshalJSON x lk us0 b).2 = none)
    (hA : plainIn nActions (parse b) = true)
    (hO : plainIn nOem (child (parse b) nActions) = true) :
    (UnmarshalJSON x lk us0 b).1.OemActions = rawOf (child (child (parse b) nActions) nOem)
    ∧ (UnmarshalJSON x lk us0 b).1.OemActions <:+: b
    ∧ (child (child (parse b) nActions) nOem = none →
        (UnmarshalJSON x lk us0 b).1.OemActions = []) := by
  obtain ⟨t, ht, -, hus⟩ := UnmarshalJSON_ok x lk us0 b hok
  have hAc := actions_of_payload x lk b t hA ht
  have e1 := storeOpt_raw (oem_of_actions _ _ _ hO hAc)
  rw [hus]
  dsimp only
  refine ⟨e1, ?_, ?_⟩
  · rw [e1]; exact rawOf_child_child_infix b nActions nOem
  · intro h0; rw [e1, h0]; rfl

/-- C5, at a payload with an `Oem` member under `Actions`, whose text is
kept, and at a payload with a vendor action directly under `Actions`, which
leaves `OemActions` empty. -/
theorem UnmarshalJSON_oemActions_witness :
    (decodeInto fresh withOem).2 = none
    ∧ plainIn nActions (parse withOem) = true
    ∧ plainIn nOem (child (parse withOem) nActions) = true
    ∧ (decodeInto fresh withOem).1.OemActions
        = bytesOf "\x7b\"#Vendor.Reset\":\x7b\"target\":\"/v\"\x7d\x7d"
    ∧ (decodeInto fresh vendorAction).1.OemActions = [] :=
  have h := UnmarshalJSON_oemActions scenarioCommon Link.spec fresh withOem (by decide) (by decide)
    (by decide)
  have h0 := UnmarshalJSON_oemActions scenarioCommon Link.spec fresh vendorAction (by decide) (by decide)
    (by decide)
  ⟨by decide, by decide, by decide, h.1.trans (by decide), h0.2.2 rfl⟩

/-- C5 as stated fails: the payload whose `Actions` object holds the one
member `#Vendor.Reset`, not a schema action, decodes without error to an
empty `OemActions`, so neither the name nor its value is kept. -/
theorem UnmarshalJSON_oemActions_counterexample :
    (decodeInto fresh vendorAction).2 = none
    ∧ (members (child (parse vendorAction) nActions)).map (fun m => m.1)
        = [bytesOf "#Vendor.Reset"]
    ∧ (decodeInto fresh vendorAction).1.OemActions = [] := by
  refine ⟨by decide, by decide, by decide⟩

/-- C6 (amended). For every URI `u` and every two payloads that differ only
in the shape of one link member (`FirmwareInventory` or `SoftwareInventory`),
the bare string `u` in one and the link object with `@odata.id` equal to `u`
in the other: the link decodes from either shape to `u`; the two decodes
return the same error or both none; the decoded entities agree in every field
but `rawData`; when the decode succeeds and no other member carries that name
up to letter case, the link field is `u` in both; the two payloads decode
without error exactly when the payload without that member does; and so, when
the rest of the payload decodes and no other member carries the name up to
letter case, both decode without error and both give the link field `u`. -/
theorem UnmarshalJSON_link_shapes {E S : Type} (x : Common E S) (us0 : UpdateService E S)
    (b1 b2 : Bytes) (k u rawString rawObject rawInner : Bytes)
    (pre post : List (Bytes × JValue))
    (hk : k = nFirmwareInventory ∨ k = nSoftwareInventory)
    (h1 : members (parse b1) = pre ++ (k, .string rawString u) :: post)
    (h2 : members (parse b2)
      = pre ++ (k, .object rawObject [(odataIdKey, .string rawInner u)]) :: post) :
    Link.decode (.string rawString u) = .ok u
    ∧ Link.decode (.object rawObject [(odataIdKey, .string rawInner u)]) = .ok u
    ∧ (UnmarshalJSON x Link.spec us0 b1).2 = (UnmarshalJSON x Link.spec us0 b2).2
    ∧ (UnmarshalJSON x Link.spec us0 b1).1.withoutRaw = (UnmarshalJSON x Link.spec us0 b2).1.withoutRaw
    ∧ ((UnmarshalJSON x Link.spec us0 b1).2 = none → named k pre = [] → named k post = [] →
        linkField k (UnmarshalJSON x Link.spec us0 b1).1 = u
        ∧ linkField k (UnmarshalJSON x Link.spec us0 b2).1 = u)
    ∧ (∀ (us1 : UpdateService E S) (b0 raw0 : Bytes),
        parse b0 = some (.object raw0 (pre ++ post)) →
        ((UnmarshalJSON x Link.spec us0 b1).2 = none
          ↔ (UnmarshalJSON x Link.spec us1 b0).2 = none)
        ∧ ((UnmarshalJSON x Link.spec us0 b2).2 = none
          ↔ (UnmarshalJSON x Link.spec us1 b0).2 = none)
        ∧ ((UnmarshalJSON x Link.spec us1 b0).2 = none →
            named k pre = [] → named k post = [] →
            (UnmarshalJSON x Link.spec us0 b1).2 = none
            ∧ (UnmarshalJSON x Link.spec us0 b2).2 = none
            ∧ linkField k (UnmarshalJSON x Link.spec us0 b1).1 = u
            ∧ linkField k (UnmarshalJSON x Link.spec us0 b2).1 = u)) := by
  have d1 : Link.decode (.string rawString u) = .ok u := rfl
  have d2 : Link.decode (.object rawObject [(odataIdKey, .string rawInner u)]) = .ok u := by
    simp [Link.decode, JValue.member?]
  have hT : unmarshalT x Link.spec b1 = unmarshalT x Link.spec b2 := by
    rw [unmarshalT_of_members x Link.spec b1 (by rw [h1]; simp),
      unmarshalT_of_members x Link.spec b2 (by rw [h2]; simp), h1, h2]
    exact storeMembers_swap (tFields x Link.spec) k _ _
      (link_store_same x k hk _ _ (d1.trans d2.symm)) pre post (T.zero x Link.spec)
  have hE : (UnmarshalJSON x Link.spec us0 b1).2 = (UnmarshalJSON x Link.spec us0 b2).2 := by
    unfold UnmarshalJSON; rw [hT]; cases unmarshalT x Link.spec b2 <;> rfl
  have hW : (UnmarshalJSON x Link.spec us0 b1).1.withoutRaw = (UnmarshalJSON x Link.spec us0 b2).1.withoutRaw := by
    unfold UnmarshalJSON; rw [hT]; cases unmarshalT x Link.spec b2 <;> rfl
  have hU : (UnmarshalJSON x Link.spec us0 b1).2 = none → named k pre = [] →
      named k post = [] →
      linkField k (UnmarshalJSON x Link.spec us0 b1).1 = u
      ∧ linkField k (UnmarshalJSON x Link.spec us0 b2).1 = u := ?_
  · refine ⟨d1, d2, hE, hW, hU, ?_⟩
    intro us1 b0 raw0 h0
    have i1 := UnmarshalJSON_link_member x us0 us1 b1 b0 raw0 k hk _ u d1 pre post h1 h0
    have i2 := UnmarshalJSON_link_member x us0 us1 b2 b0 raw0 k hk _ u d2 pre post h2 h0
    refine ⟨i1, i2, ?_⟩
    intro hok0 hpre hpost
    have hu := hU (i1.2 hok0) hpre hpost
    exact ⟨i1.2 hok0, i2.2 hok0, hu.1, hu.2⟩
  intro hok hpre hpost
  have hok2 : (UnmarshalJSON x Link.spec us0 b2).2 = none := hE ▸ hok
  obtain ⟨t1, ht1, -, e1⟩ := UnmarshalJSON_ok x Link.spec us0 b1 hok
  obtain ⟨t2, ht2, -, e2⟩ := UnmarshalJSON_ok x Link.spec us0 b2 hok2
  obtain ⟨r1, p1⟩ := parse_of_members b1 (by rw [h1]; simp)
  obtain ⟨r2, p2⟩ := parse_of_members b2 (by rw [h2]; simp)
  rw [h1] at p1
  rw [h2] at p2
  have q1 := plainIn_of_named_nil k r1 pre post (.string rawString u) hpre hpost
  have q2 := plainIn_of_named_nil k r2 pre post
    (.object rawObject [(odataIdKey, .string rawInner u)]) hpre hpost
  rw [← p1] at q1
  rw [← p2] at q2
  rcases hk with rfl | rfl
  · have a1 := storeOpt_link (firmware_of_payload x Link.spec b1 t1 q1.1 ht1)
    have a2 := storeOpt_link (firmware_of_payload x Link.spec b2 t2 q2.1 ht2)
    rw [q1.2] at a1
    rw [q2.2] at a2
    rw [e1, e2]
    simp only [linkField, if_true]
    refine ⟨a1.trans rfl, a2.trans ?_⟩
    simp [uriOf, JValue.member?, textOf]
  · have a1 := storeOpt_link (software_of_payload x Link.spec b1 t1 q1.1 ht1)
    have a2 := storeOpt_link (software_of_payload x Link.spec b2 t2 q2.1 ht2)
    rw [q1.2] at a1
    rw [q2.2] at a2
    rw [e1, e2]
    have hne : nSoftwareInventory ≠ nFirmwareInventory := by decide
    simp only [linkField, if_neg hne]
    refine ⟨a1.trans rfl, a2.trans ?_⟩
    simp [uriOf, JValue.member?, textOf]

/-- C6, at the payload with the bare string `/x/Fw` and the payload with the
link object of the same URI, whose rest is the empty object: both decode
without error, to the same link. -/
theorem UnmarshalJSON_link_shapes_witness :
    (decodeInto fresh emptyObject).2 = none
    ∧ (decodeInto fresh bareLink).2 = none
    ∧ (decodeInto fresh objectLink).2 = none
    ∧ (decodeInto fresh bareLink).1.FirmwareInventory = bytesOf "/x/Fw"
    ∧ (decodeInto fresh objectLink).1.FirmwareInventory = bytesOf "/x/Fw"
    ∧ (decodeInto fresh bareLink).1.withoutRaw
        = (decodeInto fresh objectLink).1.withoutRaw :=
  have h := UnmarshalJSON_link_shapes scenarioCommon fresh bareLink objectLink
    nFirmwareInventory (bytesOf "/x/Fw") (bytesOf "\"/x/Fw\"")
    (bytesOf "\x7b\"@odata.id\":\"/x/Fw\"\x7d") (bytesOf "\"/x/Fw\"") [] []
    (Or.inl rfl) rfl rfl
  have hr := (h.2.2.2.2.2 fresh emptyObject emptyObject rfl).2.2 (by decide) rfl rfl
  ⟨by decide, hr.1, hr.2.1, hr.2.2.1, hr.2.2.2, h.2.2.2.1⟩

/-- C6 as stated fails: two payloads that differ only in the shape of their
`FirmwareInventory` member, the bare string `/u` in one and the link object of
`/u` in the other, and that carry a second member `firmwareinventory`, both
decode without error, and neither gives the link field `/u`: both give `/v`. -/
theorem UnmarshalJSON_link_shapes_counterexample :
    members (parse repeatedBare)
        = [(nFirmwareInventory, .string (bytesOf "\"/u\"") (bytesOf "/u")),
           (bytesOf "firmwareinventory", .string (bytesOf "\"/v\"") (bytesOf "/v"))]
    ∧ members (parse repeatedObject)
        = [(nFirmwareInventory, .object (bytesOf "\x7b\"@odata.id\":\"/u\"\x7d")
              [(odataIdKey, .string (bytesOf "\"/u\"") (bytesOf "/u"))]),
           (bytesOf "firmwareinventory", .string (bytesOf "\"/v\"") (bytesOf "/v"))]
    ∧ (decodeInto fresh repeatedBare).2 = none
    ∧ (decodeInto fresh repeatedObject).2 = none
    ∧ (decodeInto fresh repeatedBare).1.FirmwareInventory = bytesOf "/v"
    ∧ (decodeInto fresh repeatedObject).1.FirmwareInventory = bytesOf "/v"
    ∧ (decodeInto fresh repeatedBare).1.FirmwareInventory ≠ bytesOf "/u"
    ∧ (decodeInto fresh repeatedObject).1.FirmwareInventory ≠ bytesOf "/u" := by
  refine ⟨rfl, rfl, by decide, by decide, by decide, by decide, by decide, by decide⟩

/-- C7 (amended). For every payload that `UnmarshalJSON` decodes without
error and in which the name `Oem` is plain among the top-level members
(spelled exactly so wherever it occurs up to letter case, and at most once),
the `Oem` field is the input text of the value of the top-level member `Oem`,
a part of the input as it stands, and is empty when there is no such member,
whatever `Actions` contains. -/
theorem UnmarshalJSON_oem {E S L : Type} (x : Common E S) (lk : LinkDecl L)
    (us0 : UpdateService E S)
    (b : Bytes) (hok : (UnmarshalJSON x lk us0 b).2 = none)
    (hO : plainIn nOem (parse b) = true) :
    (UnmarshalJSON x lk us0 b).1.Oem = rawOf (child (parse b) nOem)
    ∧ (UnmarshalJSON x lk us0 b).1.Oem <:+: b
    ∧ (child (parse b) nOem = none → (UnmarshalJSON x lk us0 b).1.Oem = []) := by
  obtain ⟨t, ht, -, hus⟩ := UnmarshalJSON_ok x lk us0 b hok
  have e1 := storeOpt_raw (oem_of_payload x lk b t hO ht)
  rw [hus]
  dsimp only
  refine ⟨e1, ?_, ?_⟩
  · rw [e1]; exact rawOf_child_infix b nOem
  · intro h0; rw [e1, h0]; rfl

/-- C7, at a payload with an `Oem` member, whose text is kept with its
blanks, and at the scenario payload of the spec, which has none. -/
theorem UnmarshalJSON_oem_witness :
    (decodeInto fresh withOem).2 = none
    ∧ plainIn nOem (parse withOem) = true
    ∧ (decodeInto fresh withOem).1.Oem
        = bytesOf "\x7b \"Vendor\" : [1, 2] \x7d"
    ∧ (decodeInto fresh scenario).1.Oem = [] :=
  have h := UnmarshalJSON_oem scenarioCommon Link.spec fresh withOem (by decide) (by decide)
  have h0 := UnmarshalJSON_oem scenarioCommon Link.spec fresh scenario (by decide) (by decide)
  ⟨by decide, by decide, h.1.trans (by decide), h0.2.2 rfl⟩

/-- C7 as stated fails: a payload with no `Oem` member, only an `oem` one,
decodes to a non-empty `Oem` field; and in a payload with both, the `Oem` field
is not the text of the `Oem` member. -/
theorem UnmarshalJSON_oem_counterexample :
    ((decodeInto fresh lowerOem).2 = none
      ∧ child (parse lowerOem) nOem = none
      ∧ (decodeInto fresh lowerOem).1.Oem = bytesOf "1"
      ∧ (decodeInto fresh lowerOem).1.Oem ≠ [])
    ∧ ((decodeInto fresh mixedOem).2 = none
      ∧ rawOf (child (parse mixedOem) nOem) = bytesOf "1"
      ∧ (decodeInto fresh mixedOem).1.Oem = bytesOf "2") := by
  refine ⟨⟨by decide, rfl, by decide, by decide⟩, ⟨by decide, by decide, by decide⟩⟩

/-! ## The accessors and the fetch -/

/-- C8 (amended). For every entity decoded without error from a payload in
which the name `SoftwareInventory` (respectively `FirmwareInventory`) is plain
among the top-level members and the link of that name is absent or has an
empty URI, and whatever client the entity then holds, `SoftwareInventories`
(respectively `FirmwareInventories`) returns an empty sequence and no error
and requests nothing from the client; and each accessor hands the resolver
the entity's own client and its own link field. -/
theorem accessors_of_decoded {E S C M : Type} (x : Common E S) (GetClient : E → C)
    (fetch : C → Bytes → Except FetchError Bytes) (decodeMember : Bytes → Except DecodeError M)
    (us0 : UpdateService E S) (b : Bytes) (e : E)
    (hok : (UnmarshalJSON x Link.spec us0 b).2 = none) :
    (plainIn nSoftwareInventory (parse b) = true →
      uriOf (child (parse b) nSoftwareInventory) = [] →
      (SoftwareInventories GetClient (ListReferenced fetch decodeMember)
          { (UnmarshalJSON x Link.spec us0 b).1 with Entity := e }).requests = []
      ∧ (SoftwareInventories GetClient (ListReferenced fetch decodeMember)
          { (UnmarshalJSON x Link.spec us0 b).1 with Entity := e }).result = .ok [])
    ∧ (plainIn nFirmwareInventory (parse b) = true →
      uriOf (child (parse b) nFirmwareInventory) = [] →
      (FirmwareInventories GetClient (ListReferenced fetch decodeMember)
          { (UnmarshalJSON x Link.spec us0 b).1 with Entity := e }).requests = []
      ∧ (FirmwareInventories GetClient (ListReferenced fetch decodeMember)
          { (UnmarshalJSON x Link.spec us0 b).1 with Entity := e }).result = .ok [])
    ∧ (∀ (R : Type) (list : C → Bytes → R) (us : UpdateService E S),
        SoftwareInventories GetClient list us = list (GetClient us.Entity) us.SoftwareInventory
        ∧ FirmwareInventories GetClient list us
            = list (GetClient us.Entity) us.FirmwareInventory) := by
  obtain ⟨t, ht, -, hus⟩ := UnmarshalJSON_ok x Link.spec us0 b hok
  refine ⟨?_, ?_, fun _ _ _ => ⟨rfl, rfl⟩⟩
  · intro hp hempty
    have e2 := storeOpt_link (software_of_payload x Link.spec b t hp ht)
    rw [hempty] at e2
    rw [hus]
    simp [SoftwareInventories, ListReferenced, e2, Link.spec]
  · intro hp hempty
    have e1 := storeOpt_link (firmware_of_payload x Link.spec b t hp ht)
    rw [hempty] at e1
    rw [hus]
    simp [FirmwareInventories, ListReferenced, e1, Link.spec]

/-- C8, at the scenario payload of the spec, which has no software inventory
link, with a client set on the decoded entity. -/
theorem accessors_of_decoded_witness :
    (decodeInto fresh scenario).2 = none
    ∧ plainIn nSoftwareInventory (parse scenario) = true
    ∧ uriOf (child (parse scenario) nSoftwareInventory) = []
    ∧ (SoftwareInventories Entity.GetClient (ListReferenced Client.fetch bodyOnly)
        { (decodeInto fresh scenario).1 with
          Entity := { Entity.zero with client := lowerSoftwareClient } }).requests = []
    ∧ (SoftwareInventories Entity.GetClient (ListReferenced Client.fetch bodyOnly)
        { (decodeInto fresh scenario).1 with
          Entity := { Entity.zero with client := lowerSoftwareClient } }).result = .ok [] :=
  have h := (accessors_of_decoded scenarioCommon Entity.GetClient Client.fetch bodyOnly fresh
    scenario { Entity.zero with client := lowerSoftwareClient } (by decide)).1
    (by decide) (by decide)
  ⟨by decide, by decide, by decide, h.1, h.2⟩

/-- C8 as stated fails: the update service fetched from a client that serves
a payload with no `SoftwareInventory` member, only a `softwareinventory` one,
is returned without error, and its `SoftwareInventories` requests `/s` from the
client and returns an error. -/
theorem accessors_of_decoded_counterexample :
    (getService lowerSoftwareClient serviceURI).2 = none
    ∧ child (parse lowerSoftware) nSoftwareInventory = none
    ∧ ((getService lowerSoftwareClient serviceURI).1.map
          (fun us => (SoftwareInventories Entity.GetClient
            (ListReferenced Client.fetch bodyOnly) us).requests))
        = some [bytesOf "/s"]
    ∧ ((getService lowerSoftwareClient serviceURI).1.map
          (fun us => (SoftwareInventories Entity.GetClient
            (ListReferenced Client.fetch bodyOnly) us).result))
        = some (.error .transport) := by
  refine ⟨by decide, rfl, by decide, rfl⟩

/-- C9 (amended). For every client and URI, `GetUpdateService` returns the
error of `Entity.Get` unchanged, and its entity result is never nil: it is
the pointer to the local `UpdateService` in the state `Get` left it, also when
the error is not nil. With the fetch of the spec, a failed fetch or a failed
decode leaves that entity at its zero value: nothing of the payload is
populated, but the entity is handed to the caller alongside the error. -/
theorem GetUpdateService_result {E S L C Err : Type} (x : Common E S) (lk : LinkDecl L)
    (Get : C → Bytes → (UpdateService E S → Bytes → UpdateService E S × Option DecodeError) →
      UpdateService E S → UpdateService E S × Option Err)
    (c : C) (uri : Bytes) :
    (GetUpdateService x lk Get c uri).2 = (Get c uri (UnmarshalJSON x lk) (UpdateService.zero x)).2
    ∧ (GetUpdateService x lk Get c uri).1
        = some (Get c uri (UnmarshalJSON x lk) (UpdateService.zero x)).1
    ∧ (GetUpdateService x lk Get c uri).1 ≠ none
    ∧ (∀ (fetch : C → Bytes → Except FetchError Bytes)
        (SetClient : C → UpdateService E S → UpdateService E S),
        (GetUpdateService x lk (Entity.Get fetch SetClient) c uri).2 ≠ none →
        (GetUpdateService x lk (Entity.Get fetch SetClient) c uri).1
          = some (UpdateService.zero x)) := by
  refine ⟨rfl, rfl, by simp [GetUpdateService], ?_⟩
  intro fetch SetClient hne
  simp only [GetUpdateService, Entity.Get] at hne ⊢
  cases hf : fetch c uri with
  | error e => simp
  | ok body =>
    rcases hu : UnmarshalJSON x lk (UpdateService.zero x) body with ⟨u1, o1⟩
    cases o1 with
    | none => simp [hf, hu] at hne
    | some e1 =>
      have hz := UnmarshalJSON_error_target x lk (UpdateService.zero x) body (by rw [hu]; simp)
      rw [hu] at hz
      simp only at hz
      subst hz
      simp [hu]

/-- C9 as stated fails: with a client that serves a payload cut short, and
with a client whose fetch of the URI fails, `GetUpdateService` returns the
error and an entity result that is not nil. -/
theorem GetUpdateService_counterexample :
    ((getService truncatedClient serviceURI).2 = some (.decode .malformed)
      ∧ (getService truncatedClient serviceURI).1.isSome = true)
    ∧ (Client.fetch truncatedClient unservedURI = .error .transport
      ∧ (getService truncatedClient unservedURI).2 = some .transport
      ∧ (getService truncatedClient unservedURI).1.isSome = true) := by
  refine ⟨⟨by decide, by decide⟩, ⟨rfl, by decide, by decide⟩⟩

/-! ## Top-level members that are overwritten -/

/-- C10. For every two payloads that both decode without error and whose
top-level members are the same once the members named `TransferProtocol`,
`UpdateServiceTarget`, `StartUpdateTarget` and `OemActions` are left out, the
decoded entities agree in every field but `rawData`: a top-level member of one
of these names never reaches the entity. -/
theorem UnmarshalJSON_overwritten {E S L : Type} (x : Common E S) (lk : LinkDecl L)
    (us1 us2 : UpdateService E S)
    (b1 b2 : Bytes)
    (hok1 : (UnmarshalJSON x lk us1 b1).2 = none) (hok2 : (UnmarshalJSON x lk us2 b2).2 = none)
    (hsame : withoutOverwritten (members (parse b1)) = withoutOverwritten (members (parse b2))) :
    (UnmarshalJSON x lk us1 b1).1.withoutRaw = (UnmarshalJSON x lk us2 b2).1.withoutRaw := by
  obtain ⟨t1, ht1, -, e1⟩ := UnmarshalJSON_ok x lk us1 b1 hok1
  obtain ⟨t2, ht2, -, e2⟩ := UnmarshalJSON_ok x lk us2 b2 hok2
  obtain ⟨ta, hta, hca⟩ := storeMembers_withoutOverwritten x lk _ _ _
    (storeMembers_of_storeOpt _ _ _ _ ht1)
  obtain ⟨tb, htb, hcb⟩ := storeMembers_withoutOverwritten x lk _ _ _
    (storeMembers_of_storeOpt _ _ _ _ ht2)
  rw [hsame, htb] at hta
  cases hta
  have hc : t1.core = t2.core := hca.trans hcb.symm
  rw [core_eq_iff] at hc
  obtain ⟨c1, c2, c3, c4, c5, c6, c7, c8, c9, c10, c11, c12, c13, c14, c15⟩ := hc
  rw [e1, e2]
  simp only [UpdateService.withoutRaw, UpdateService.mk.injEq]
  simp [*]

/-- C10, at a payload with a top-level `UpdateServiceTarget` member and no
`Actions`, and the same payload without that member: the entities agree but
for `rawData`, and `UpdateServiceTarget` is empty; so it is for the payload
with that member alone. -/
theorem UnmarshalJSON_overwritten_witness :
    (decodeInto fresh shadowing).2 = none
    ∧ (decodeInto fresh shadowingNot).2 = none
    ∧ (members (parse shadowing)).map (fun m => m.1)
        = [bytesOf "UpdateServiceTarget", bytesOf "Description"]
    ∧ (members (parse shadowingNot)).map (fun m => m.1) = [bytesOf "Description"]
    ∧ (decodeInto fresh shadowing).1.withoutRaw
        = (decodeInto fresh shadowingNot).1.withoutRaw
    ∧ (decodeInto fresh shadowing).1.UpdateServiceTarget = []
    ∧ (decodeInto fresh shadowOnly).1.withoutRaw
        = (decodeInto fresh emptyObject).1.withoutRaw
    ∧ (decodeInto fresh shadowOnly).1.UpdateServiceTarget = [] :=
  ⟨by decide, by decide, by decide, by decide,
    UnmarshalJSON_overwritten scenarioCommon Link.spec fresh fresh shadowing shadowingNot
      (by decide) (by decide) rfl,
    by decide,
    UnmarshalJSON_overwritten scenarioCommon Link.spec fresh fresh shadowOnly emptyObject
      (by decide) (by decide) rfl,
    by decide⟩

end Gofish
